import Mathlib

/-!
# Route extraction and movement scheduling (`main.go`)

A shallow embedding of the two algorithmic stages of the program:

* `findPath` / `updateCapacities` and the extraction loop of `main`
  (repeated breadth-first search over the links that still have capacity);
* `moveAnts` (route assignment followed by the turn loop).

Go maps are association lists (`visited` is a list of keys), Go slices are
lists, loops whose termination is not structural carry a fuel argument and
answer `none` when the fuel is exhausted.  In the scheduler a Go panic (an
index out of range, a negative length given to `make`) is `none` for one
step and `Run.panic` for the whole run, which tells it apart from
`Run.outOfFuel`.  Ant counts are natural numbers up to the largest Go `int`;
the one sum of `moveAnts` that can leave the range of `int` wraps.  `from`
and `end` are reserved words in Lean, as is `to`, hence `from_`, `to_` and
`end_`.
-/

namespace Lemin

/-! ## Data model -/

/-- Go `type Link struct { from, to string; capacity int }`. -/
structure Link where
  from_ : String
  to_ : String
  capacity : Int
  deriving DecidableEq, Repr

/-- The three mutable variables of `findPath`: the `visited` map (its keys),
the `parent` map and the `queue` slice. -/
structure Search where
  visited : List String
  parent : List (String × String)
  queue : List String
  deriving DecidableEq, Repr

/-! ## findPath -/

/-- Go `parent[current]`: the stored value, or the zero value `""` of a
missing key. -/
def parentOf (parent : List (String × String)) (current : String) : String :=
  match parent.lookup current with
  | some p => p
  | none => ""

/-- The body `if !visited[next] { ... }` of the link scan (lines 121-125). -/
def discover (current next : String) (st : Search) : Search :=
  if next ∈ st.visited then st
  else
    { visited := next :: st.visited
      parent := (next, current) :: st.parent
      queue := st.queue ++ [next] }

/-- The loop `for i := range links` of `findPath` (lines 110-127), run over
the remaining links. -/
def scanLinks (current : String) : List Link → Search → Search
  | [], st => st
  | l :: ls, st =>
    if 0 < l.capacity then
      if l.from_ = current then scanLinks current ls (discover current l.to_ st)
      else if l.to_ = current then scanLinks current ls (discover current l.from_ st)
      else scanLinks current ls st
    else scanLinks current ls st

/-- The path reconstruction loop `for current != start` (lines 102-105);
`path` is the slice built so far. -/
def reconstruct (parent : List (String × String)) (start : String) :
    Nat → String → List String → Option (List String)
  | 0, _, _ => none
  | fuel + 1, current, path =>
    if current = start then some path
    else reconstruct parent start fuel (parentOf parent current)
      (parentOf parent current :: path)

/-- The loop `for len(queue) > 0` of `findPath` (lines 95-128) followed by
`return false, nil`. -/
def bfsLoop (links : List Link) (start end_ : String) :
    Nat → Search → Option (Bool × List String)
  | 0, _ => none
  | fuel + 1, st =>
    match st.queue with
    | [] => some (false, [])
    | current :: rest =>
      if current = end_ then
        (reconstruct st.parent start (st.parent.length + 1) current [end_]).map
          (fun path => (true, path))
      else
        bfsLoop links start end_ fuel
          (scanLinks current links { st with queue := rest })

/-- The state of `findPath` when its loop is entered. -/
def initSearch (start : String) : Search :=
  { visited := [start], parent := [], queue := [start] }

/-- Go `findPath(links, start, end)`.  The fuel `2 * len(links) + 2` is
enough for every input (`findPath_total`). -/
def findPath (links : List Link) (start end_ : String) : Option (Bool × List String) :=
  bfsLoop links start end_ (2 * links.length + 2) (initSearch start)

/-! ## updateCapacities and the extraction loop of main -/

/-- The inner loop of `updateCapacities` (lines 139-145): the first link that
joins `from_` and `to_`, in either direction, gets capacity 0. -/
def clearLink (from_ to_ : String) : List Link → List Link
  | [] => []
  | l :: ls =>
    if (l.from_ = from_ ∧ l.to_ = to_) ∨ (l.from_ = to_ ∧ l.to_ = from_) then
      { l with capacity := 0 } :: ls
    else l :: clearLink from_ to_ ls

/-- Go `updateCapacities(links, path)`; the slice is mutated in place, here
the new slice is returned. -/
def updateCapacities : List Link → List String → List Link
  | links, a :: b :: rest => updateCapacities (clearLink a b links) (b :: rest)
  | links, _ => links

/-- The loop of `main` (lines 290-297): search, stop when nothing is found,
otherwise record the path and clear its links.  Returns the routes and the
final link slice. -/
def extractLoop (start end_ : String) :
    Nat → List Link → List (List String) → Option (List (List String) × List Link)
  | 0, _, _ => none
  | fuel + 1, links, paths =>
    match findPath links start end_ with
    | none => none
    | some (false, _) => some (paths, links)
    | some (true, path) =>
      extractLoop start end_ fuel (updateCapacities links path) (paths ++ [path])

/-- Links as `parseInput` builds them: capacity 1. -/
def mkLink (a b : String) : Link := { from_ := a, to_ := b, capacity := 1 }

/-! ## moveAnts -/

/-- A move `L<ant>-<room>` of one turn, kept as the pair (ant, room). -/
abbrev Move := Nat × String

/-- Go `antState` (declared inside `moveAnts`). -/
structure antState where
  pathIdx : Nat
  position : Nat
  finished : Bool
  deriving DecidableEq, Repr

/-- The variables of the turn loop of `moveAnts`: the `antStates` map (in
insertion order) and the three counters. -/
structure Sched where
  antStates : List (Nat × antState)
  activeAnts : Int
  startedAnts : Nat
  finishedAnts : Nat
  deriving DecidableEq, Repr

/-- Result of a loop that may panic or, in the model, run out of fuel. -/
inductive Run (α : Type) where
  | done (a : α)
  | panic
  | outOfFuel
  deriving DecidableEq, Repr

/-- The largest Go `int` (64 bits): `2^63 - 1`. -/
def maxInt : Nat := 9223372036854775807

/-- The Go `int` that an exact integer result wraps to: the value modulo
`2^64` in the range `-2^63 .. 2^63 - 1`. -/
def wrapInt (x : Int) : Int :=
  (x + 9223372036854775808) % 18446744073709551616 - 9223372036854775808

/-- Go `countAntsInPath(antAssignments, pathIdx)`. -/
def countAntsInPath (antAssignments : List Nat) (pathIdx : Nat) : Int :=
  antAssignments.foldl (fun count path => if path = pathIdx then count + 1 else count) 0

/-- The slice `pathLengths` (lines 151-154): `len(paths[i]) - 1` as a Go int. -/
def pathLengths (paths : List (List String)) : List Int :=
  paths.map (fun p => (p.length : Int) - 1)

/-- The loop `for pathIdx := 1; pathIdx < len(paths); pathIdx++` (lines
162-168) over the remaining indices, carrying `(bestPath, bestCost)`; the
sum `currentCost` is a Go `int` and wraps. -/
def bestPathLoop (lengths : List Int) (antAssignments : List Nat) :
    List Nat → Nat × Int → Option (Nat × Int)
  | [], best => some best
  | pathIdx :: rest, best =>
    match lengths[pathIdx]? with
    | none => none
    | some len =>
      if wrapInt (len + countAntsInPath antAssignments pathIdx) < best.2 then
        bestPathLoop lengths antAssignments rest
          (pathIdx, wrapInt (len + countAntsInPath antAssignments pathIdx))
      else bestPathLoop lengths antAssignments rest best

/-- One iteration of the assignment loop (lines 159-169) for `ant`. -/
def assignAnt (paths : List (List String)) (antAssignments : List Nat) (ant : Nat) :
    Option (List Nat) :=
  match (pathLengths paths)[0]? with
  | none => none
  | some len0 =>
    (bestPathLoop (pathLengths paths) antAssignments
        (List.range' 1 (paths.length - 1))
        (0, wrapInt (len0 + countAntsInPath antAssignments 0))).map
      (fun best => antAssignments.set ant best.1)

/-- The loop `for ant := 1; ant <= antCount; ant++` (lines 158-170) over the
remaining ants. -/
def assignLoop (paths : List (List String)) : List Nat → List Nat → Option (List Nat)
  | [], antAssignments => some antAssignments
  | ant :: rest, antAssignments =>
    match assignAnt paths antAssignments ant with
    | none => none
    | some a => assignLoop paths rest a

/-- Go `make([]int, antCount+1)` (line 157).  The length is a Go `int`: for
`antCount = maxInt` it wraps to `-2^63` and `make` panics (`none`); numbers
above `maxInt` are no Go ints and get the same answer.  Otherwise the slice
is zero-filled; the memory the runtime can allocate is not bounded in the
model. -/
def makeAssignments (antCount : Nat) : Option (List Nat) :=
  if maxInt ≤ antCount then none else some (List.replicate (antCount + 1) 0)

/-- The slice `antAssignments` when the turn loop starts:
`make([]int, antCount+1)` filled by the assignment loop. -/
def assignAnts (paths : List (List String)) (antCount : Nat) : Option (List Nat) :=
  match makeAssignments antCount with
  | none => none
  | some antAssignments => assignLoop paths (List.range' 1 antCount) antAssignments

/-- Go `antStates[ant] = state`, also the effect of a write through the
pointer stored under `ant`. -/
def setState (antStates : List (Nat × antState)) (ant : Nat) (state : antState) :
    List (Nat × antState) :=
  if antStates.any (fun e => e.1 = ant) then
    antStates.map (fun e => if e.1 = ant then (ant, state) else e)
  else antStates ++ [(ant, state)]

/-- The admission check (lines 194-199): some unfinished ant of `pathIdx` is
at position 1. -/
def firstRoomTaken (antStates : List (Nat × antState)) (pathIdx : Nat) : Bool :=
  antStates.any (fun e => !e.2.finished && e.2.pathIdx = pathIdx && e.2.position = 1)

/-- The advancement check (lines 225-232): another unfinished ant of
`pathIdx` is at `nextPos`. -/
def nextPosTaken (antStates : List (Nat × antState)) (ant pathIdx nextPos : Nat) : Bool :=
  antStates.any (fun e =>
    e.1 ≠ ant && !e.2.finished && e.2.pathIdx = pathIdx && e.2.position = nextPos)

/-- The block `if startedAnts < antCount { ... }` (lines 188-211). -/
def startNewAnt (paths : List (List String)) (antAssignments : List Nat) (antCount : Nat)
    (s : Sched) : Option (Sched × List Move) :=
  if s.startedAnts < antCount then
    match antAssignments[s.startedAnts + 1]? with
    | none => none
    | some pathIdx =>
      if firstRoomTaken s.antStates pathIdx then some (s, [])
      else
        match paths[pathIdx]? with
        | none => none
        | some path =>
          match path[1]? with
          | none => none
          | some room =>
            some ({ antStates := setState s.antStates (s.startedAnts + 1)
                      { pathIdx := pathIdx, position := 1, finished := false }
                    activeAnts := s.activeAnts + 1
                    startedAnts := s.startedAnts + 1
                    finishedAnts := s.finishedAnts },
                  [(s.startedAnts + 1, room)])
  else some (s, [])

/-- The body of the loop `for ant := 1; ant <= startedAnts; ant++` (lines
215-246).  `position < len - 1` is compared in `Nat`: positions are never
negative, so truncated subtraction agrees with the Go ints. -/
def advanceAnt (paths : List (List String)) (ant : Nat) (s : Sched) (moves : List Move) :
    Option (Sched × List Move) :=
  match s.antStates.lookup ant with
  | none => some (s, moves)
  | some state =>
    if state.finished then some (s, moves)
    else
      match paths[state.pathIdx]? with
      | none => none
      | some path =>
        if state.position < path.length - 1 then
          if nextPosTaken s.antStates ant state.pathIdx (state.position + 1) then
            some (s, moves)
          else
            match path[state.position + 1]? with
            | none => none
            | some room =>
              if state.position + 1 = path.length - 1 then
                some ({ antStates := setState s.antStates ant
                          { pathIdx := state.pathIdx, position := state.position + 1,
                            finished := true }
                        activeAnts := s.activeAnts - 1
                        startedAnts := s.startedAnts
                        finishedAnts := s.finishedAnts + 1 },
                      moves ++ [(ant, room)])
              else
                some ({ antStates := setState s.antStates ant
                          { pathIdx := state.pathIdx, position := state.position + 1,
                            finished := false }
                        activeAnts := s.activeAnts
                        startedAnts := s.startedAnts
                        finishedAnts := s.finishedAnts },
                      moves ++ [(ant, room)])
        else some (s, moves)

/-- The advancement loop over the remaining ant ids. -/
def advanceLoop (paths : List (List String)) :
    List Nat → Sched → List Move → Option (Sched × List Move)
  | [], s, moves => some (s, moves)
  | ant :: rest, s, moves =>
    match advanceAnt paths ant s moves with
    | none => none
    | some r => advanceLoop paths rest r.1 r.2

/-- One iteration of the turn loop (lines 185-247): admission, then the
advancement of ants `1..startedAnts`; the result is the new state and the
slice `moves`. -/
def turn (paths : List (List String)) (antAssignments : List Nat) (antCount : Nat)
    (s : Sched) : Option (Sched × List Move) :=
  match startNewAnt paths antAssignments antCount s with
  | none => none
  | some r => advanceLoop paths (List.range' 1 r.1.startedAnts) r.1 r.2

/-- The loop `for finishedAnts < antCount` (lines 184-252); `out` collects the
printed lines, one per turn with at least one move. -/
def turnLoop (paths : List (List String)) (antAssignments : List Nat) (antCount : Nat) :
    Nat → Sched → List (List Move) → Run (List (List Move))
  | 0, _, _ => Run.outOfFuel
  | fuel + 1, s, out =>
    if s.finishedAnts < antCount then
      match turn paths antAssignments antCount s with
      | none => Run.panic
      | some r =>
        turnLoop paths antAssignments antCount fuel r.1
          (if r.2 = [] then out else out ++ [r.2])
    else Run.done out

/-- The scheduler state before the first turn. -/
def initSched : Sched :=
  { antStates := [], activeAnts := 0, startedAnts := 0, finishedAnts := 0 }

/-- Go `moveAnts(paths, antCount)`: the printed batches.  Ant counts are the
Go ints `0 .. 2^63 - 1` (`parseInput` rejects `ants <= 0`). -/
def moveAnts (fuel : Nat) (paths : List (List String)) (antCount : Nat) :
    Run (List (List Move)) :=
  match assignAnts paths antCount with
  | none => Run.panic
  | some antAssignments => turnLoop paths antAssignments antCount fuel initSched []

/-- The scheduler state after `n` further turns of the loop, `none` when the
loop has stopped (or panicked) before. -/
def afterTurns (paths : List (List String)) (antAssignments : List Nat) (antCount : Nat) :
    Nat → Sched → Option Sched
  | 0, s => some s
  | n + 1, s =>
    if s.finishedAnts < antCount then
      match turn paths antAssignments antCount s with
      | none => none
      | some r => afterTurns paths antAssignments antCount n r.1
    else none

/-! ## Specification vocabulary -/

/-- The link `l` leads from room `u` to room `v` when followed in one of its
two directions. -/
def Link.joins (l : Link) (u v : String) : Prop :=
  (l.from_ = u ∧ l.to_ = v) ∨ (l.to_ = u ∧ l.from_ = v)

instance (l : Link) (u v : String) : Decidable (l.joins u v) :=
  inferInstanceAs (Decidable ((l.from_ = u ∧ l.to_ = v) ∨ (l.to_ = u ∧ l.from_ = v)))

/-- Rooms `u` and `v` are joined by a link of positive capacity. -/
def Adj (links : List Link) (u v : String) : Prop :=
  ∃ l ∈ links, 0 < l.capacity ∧ l.joins u v

instance (links : List Link) (u v : String) : Decidable (Adj links u v) :=
  inferInstanceAs (Decidable (∃ l ∈ links, 0 < l.capacity ∧ l.joins u v))

/-- The room list `w` is a walk from `start` to `end_` over links of positive
capacity, every link usable in both directions. -/
def IsWalk (links : List Link) (start end_ : String) (w : List String) : Prop :=
  w.head? = some start ∧ w.getLast? = some end_ ∧ List.Chain' (Adj links) w

/-- Room `end_` can be reached from `start` over links of positive capacity. -/
def Reachable (links : List Link) (start end_ : String) : Prop :=
  ∃ w, IsWalk links start end_ w

/-- Length of the `parent` chain of room `v`: the number of hops of the path
that `reconstruct` builds for it. -/
def depth : List (String × String) → String → Nat
  | [], _ => 0
  | e :: rest, v => if v = e.1 then depth rest e.2 + 1 else depth rest v

/-- Every room that can enter the `visited` map: the endpoints of the links. -/
def endpoints : List Link → List String
  | [] => []
  | l :: ls => l.from_ :: l.to_ :: endpoints ls

/-- Input position of the first link of positive capacity that joins `u` and
`v`, the link through which the scan of `findPath` for `u` meets `v` first;
`len(links)` when no such link exists. -/
def hopIdx : List Link → String → String → Nat
  | [], _, _ => 0
  | l :: ls, u, v => if 0 < l.capacity ∧ l.joins u v then 0 else hopIdx ls u v + 1

/-- The input positions of the links that a room list follows, hop by hop
from its first room. -/
def hopSeq (links : List Link) : List String → List Nat
  | a :: b :: rest => hopIdx links a b :: hopSeq links (b :: rest)
  | _ => []

/-- Lexicographic comparison of two position lists: at the first place
where they differ the left one is smaller. -/
def lexLt : List Nat → List Nat → Prop
  | x :: xs, y :: ys => x < y ∨ (x = y ∧ lexLt xs ys)
  | _, _ => False

instance lexLt.instDecidable : (a b : List Nat) → Decidable (lexLt a b)
  | [], _ => isFalse (by simp [lexLt])
  | _ :: _, [] => isFalse (by simp [lexLt])
  | x :: xs, y :: ys =>
    have := lexLt.instDecidable xs ys
    inferInstanceAs (Decidable (x < y ∨ (x = y ∧ lexLt xs ys)))

/-! ## Invariants and inputs used by the proofs -/

/-- Invariant of the loop `for len(queue) > 0`, with `depth st.parent` as the
level of a room. -/
structure BfsInv (links : List Link) (start end_ : String) (st : Search) : Prop where
  start_mem : start ∈ st.visited
  d_start : depth st.parent start = 0
  nodup : st.visited.Nodup
  univ : ∀ v ∈ st.visited, v ∈ start :: endpoints links
  par : ∀ v ∈ st.visited, v ≠ start →
    ∃ p, st.parent.lookup v = some p ∧ p ∈ st.visited ∧ Adj links p v ∧
      depth st.parent v = depth st.parent p + 1
  queue_sub : ∀ q ∈ st.queue, q ∈ st.visited
  qnodup : st.queue.Nodup
  sorted : st.queue.Pairwise (fun a b => depth st.parent a ≤ depth st.parent b)
  span : ∀ a ∈ st.queue, ∀ b ∈ st.queue, depth st.parent b ≤ depth st.parent a + 1
  closed : ∀ p ∈ st.visited, p ∉ st.queue → ∀ u, Adj links p u →
    u ∈ st.visited ∧ depth st.parent u ≤ depth st.parent p + 1
  done_le : ∀ p ∈ st.visited, p ∉ st.queue → ∀ q ∈ st.queue,
    depth st.parent p ≤ depth st.parent q
  done_ne : ∀ p ∈ st.visited, p ∉ st.queue → p ≠ end_

/-- Invariant of the link scan for the dequeued room `cur`, after the links
`pre` have been scanned. -/
structure ScanInv (links : List Link) (start end_ cur : String) (pre : List Link)
    (st : Search) : Prop where
  start_mem : start ∈ st.visited
  d_start : depth st.parent start = 0
  nodup : st.visited.Nodup
  univ : ∀ v ∈ st.visited, v ∈ start :: endpoints links
  par : ∀ v ∈ st.visited, v ≠ start →
    ∃ p, st.parent.lookup v = some p ∧ p ∈ st.visited ∧ Adj links p v ∧
      depth st.parent v = depth st.parent p + 1
  cur_mem : cur ∈ st.visited
  cur_nq : cur ∉ st.queue
  queue_sub : ∀ q ∈ st.queue, q ∈ st.visited
  qnodup : st.queue.Nodup
  sorted : st.queue.Pairwise (fun a b => depth st.parent a ≤ depth st.parent b)
  lo : ∀ q ∈ st.queue, depth st.parent cur ≤ depth st.parent q
  hi : ∀ v ∈ st.visited, depth st.parent v ≤ depth st.parent cur + 1
  closed : ∀ p ∈ st.visited, p ∉ st.queue → p ≠ cur → ∀ u, Adj links p u →
    u ∈ st.visited ∧ depth st.parent u ≤ depth st.parent p + 1
  done_le : ∀ p ∈ st.visited, p ∉ st.queue → depth st.parent p ≤ depth st.parent cur
  done_ne : ∀ p ∈ st.visited, p ∉ st.queue → p ≠ end_
  scanned : ∀ l ∈ pre, 0 < l.capacity → ∀ u, l.joins cur u → u ∈ st.visited

/-- Per-route occupancy exclusion: two distinct started, unfinished ants of
the same route are at different positions. -/
def Exclusive (antStates : List (Nat × antState)) : Prop :=
  ∀ a b sa sb, (a, sa) ∈ antStates → (b, sb) ∈ antStates → a ≠ b →
    sa.finished = false → sb.finished = false →
    ¬ (sa.pathIdx = sb.pathIdx ∧ sa.position = sb.position)

/-- The scheduler state after the `n`-th turn of `moveAnts(paths, antCount)`,
`none` when the run has no `n`-th turn. -/
def schedAfter (paths : List (List String)) (antCount n : Nat) : Option Sched :=
  match assignAnts paths antCount with
  | none => none
  | some antAssignments => afterTurns paths antAssignments antCount n initSched

/-- Two parallel links `S-A` followed by three ways from `A` to `E`. -/
def parallelLinks : List Link :=
  [mkLink "S" "A", mkLink "S" "A", mkLink "A" "E", mkLink "A" "B", mkLink "B" "E",
    mkLink "A" "C", mkLink "C" "E"]

/-- The link `S-E` listed twice. -/
def duplicateLink : List Link := [mkLink "S" "E", mkLink "S" "E"]

/-- The slice `duplicateLink` after the first route has been cleared. -/
def duplicateLinkStuck : List Link :=
  [{ from_ := "S", to_ := "E", capacity := 0 }, mkLink "S" "E"]

/-- The state of the turn loop for the single route `[S, E]` and one ant once
the ant has been admitted. -/
def directRouteStuck : Sched :=
  { antStates := [(1, { pathIdx := 0, position := 1, finished := false })]
    activeAnts := 1, startedAnts := 1, finishedAnts := 0 }

/-- The part of `main` after parsing (lines 288-316): the extraction loop,
then `moveAnts(paths, ants)` without any test on `paths`. -/
def mainCore (fuel : Nat) (ants : Nat) (links : List Link) (start end_ : String) :
    Run (List (List Move)) :=
  match extractLoop start end_ fuel links [] with
  | none => Run.outOfFuel
  | some r => moveAnts fuel r.1 ants

/-- Scenario B: the links `S-A, S-B, A-E, B-E` in this order. -/
def scenarioB : List Link :=
  [mkLink "S" "A", mkLink "S" "B", mkLink "A" "E", mkLink "B" "E"]

/-- Two ways from `S` to `E` that cross in room `X`: a short one through `A`
and a long one through `C`, `D` and `F`. -/
def crossingLinks : List Link :=
  [mkLink "S" "A", mkLink "A" "X", mkLink "X" "E", mkLink "S" "C", mkLink "C" "D",
    mkLink "D" "X", mkLink "X" "F", mkLink "F" "E"]

/-- Index safety of a scheduler state: no more ants started than there are,
and every started ant refers to a route of `paths` and to a position inside
that route. -/
def SafeSched (paths : List (List String)) (antCount : Nat) (s : Sched) : Prop :=
  s.startedAnts ≤ antCount ∧
    ∀ e ∈ s.antStates, ∃ p, paths[e.2.pathIdx]? = some p ∧ e.2.position < p.length

/-- Index safety of `moveAnts(paths, antCount)`: once `make` has returned the
slice (`antCount < maxInt`) the assignment loop ends with `antCount + 1` route
indices below `len(paths)`; a run panics only where `make([]int, antCount+1)`
does, before any index is used, so no index read or write is out of range;
and every state between two turns is safe. -/
def IndexSafe (paths : List (List String)) (antCount : Nat) : Prop :=
  (antCount < maxInt →
      ∃ antAssignments, assignAnts paths antCount = some antAssignments ∧
        antAssignments.length = antCount + 1 ∧ ∀ x ∈ antAssignments, x < paths.length) ∧
    (∀ fuel, moveAnts fuel paths antCount = Run.panic → makeAssignments antCount = none) ∧
    ∀ n s, schedAfter paths antCount n = some s → SafeSched paths antCount s

/-- No two links of the list join the same unordered pair of rooms. -/
def Simple (links : List Link) : Prop :=
  links.Pairwise (fun l m =>
    ¬ ((l.from_ = m.from_ ∧ l.to_ = m.to_) ∨ (l.from_ = m.to_ ∧ l.to_ = m.from_)))

/-- Number of links that have room `s` as an endpoint. -/
def degree (links : List Link) (s : String) : Nat :=
  links.countP (fun l => decide (l.from_ = s ∨ l.to_ = s))

/-- Number of links of positive capacity that have room `s` as an endpoint. -/
def openDegree (links : List Link) (s : String) : Nat :=
  links.countP (fun l => decide (0 < l.capacity ∧ (l.from_ = s ∨ l.to_ = s)))

/-- Link `l'` is link `l` with its capacity kept or set to 0. -/
def Lowered (l l' : Link) : Prop :=
  l'.from_ = l.from_ ∧ l'.to_ = l.to_ ∧ (l'.capacity = l.capacity ∨ l'.capacity = 0)

/-- Route index of ant `k` in the slice `antAssignments`. -/
def routeOf (antAssignments : List Nat) (k : Nat) : Nat :=
  (antAssignments[k]?).getD 0

/-- Hop length `len(paths[antAssignments[k]]) - 1` of the route of ant `k`. -/
def hopOf (paths : List (List String)) (antAssignments : List Nat) (k : Nat) : Nat :=
  ((paths[routeOf antAssignments k]?).getD []).length - 1

/-- The state of ant `k` after turn `t` when no ant is ever blocked: admitted
in turn `k`, the ant is at position `t + 2 - k` until it stops at the last
index of its route. -/
def antAt (paths : List (List String)) (antAssignments : List Nat) (t k : Nat) : antState :=
  { pathIdx := routeOf antAssignments k
    position := min (t + 2 - k) (hopOf paths antAssignments k)
    finished := decide (hopOf paths antAssignments k ≤ t + 2 - k) }

/-- The `antStates` entry of ant `k` after turn `t`. -/
def stateAt (paths : List (List String)) (antAssignments : List Nat) (t k : Nat) :
    Nat × antState :=
  (k, antAt paths antAssignments t k)

/-- The entries of ants `1..m` after turn `t`. -/
def statesAt (paths : List (List String)) (antAssignments : List Nat) (t m : Nat) :
    List (Nat × antState) :=
  (List.range' 1 m).map (stateAt paths antAssignments t)

/-- Number of entries marked finished. -/
def finCount (antStates : List (Nat × antState)) : Nat :=
  antStates.countP (fun e => e.2.finished)

/-- The scheduler state after turn `t` follows the timetable `stateAt`. -/
structure Timed (paths : List (List String)) (antAssignments : List Nat) (antCount t : Nat)
    (s : Sched) : Prop where
  states : s.antStates = statesAt paths antAssignments t (min t antCount)
  started : s.startedAnts = min t antCount
  fin : s.finishedAnts = finCount s.antStates

/-- What the timetable needs from the input: `antCount + 1` assignments, all
of them route indices, and routes of at least 3 rooms. -/
structure TimedInput (paths : List (List String)) (antAssignments : List Nat)
    (antCount : Nat) : Prop where
  len : antAssignments.length = antCount + 1
  idx : ∀ x ∈ antAssignments, x < paths.length
  rooms : ∀ p ∈ paths, 3 ≤ p.length

/-- The turn in which the last ant arrives: the maximum over the ants `k` of
`k + hopLength(route(k)) - 2`. -/
def lastArrival (paths : List (List String)) (antAssignments : List Nat) (antCount : Nat) :
    Nat :=
  ((List.range' 1 antCount).map (fun k => k + hopOf paths antAssignments k - 2)).foldr max 0

/-- The room list that the `parent` chain of room `v` spells, from the room
without parent down to `v`: the path `reconstruct` builds for `v`. -/
def trail : List (String × String) → String → List String
  | [], v => [v]
  | e :: rest, v => if v = e.1 then trail rest e.2 ++ [v] else trail rest v

/-- Room `a` is discovered before room `b`: it is nearer to the start, or
as near and its `parent` chain follows links of smaller input position. -/
def Before (links : List Link) (parent : List (String × String)) (a b : String) : Prop :=
  depth parent a < depth parent b ∨
    (depth parent a = depth parent b ∧
      lexLt (hopSeq links (trail parent a)) (hopSeq links (trail parent b)))

/-- Order invariant of the loop `for len(queue) > 0`: the queue is in
discovery order, behind every room already taken from it, and the parent of
a room is the first discovered of its neighbours. -/
structure TieBfs (links : List Link) (start : String) (st : Search) : Prop where
  t_start : trail st.parent start = [start]
  t_par : ∀ v ∈ st.visited, v ≠ start → ∀ p, st.parent.lookup v = some p →
    trail st.parent v = trail st.parent p ++ [v] ∧ p ∉ st.queue
  q_sorted : st.queue.Pairwise (Before links st.parent)
  done_lt : ∀ p ∈ st.visited, p ∉ st.queue → ∀ q ∈ st.queue, Before links st.parent p q
  pmin : ∀ v ∈ st.visited, v ≠ start → ∀ p, st.parent.lookup v = some p →
    ∀ u ∈ st.visited, Adj links u v → u ≠ p → Before links st.parent p u

/-- Order invariant of the link scan for the dequeued room `cur`, after the
links `pre` have been scanned. -/
structure TieScan (links : List Link) (start cur : String) (pre : List Link)
    (st : Search) : Prop where
  t_start : trail st.parent start = [start]
  t_par : ∀ v ∈ st.visited, v ≠ start → ∀ p, st.parent.lookup v = some p →
    trail st.parent v = trail st.parent p ++ [v] ∧ p ∉ st.queue
  q_sorted : st.queue.Pairwise (Before links st.parent)
  cur_lt : ∀ q ∈ st.queue, Before links st.parent cur q
  done_lt : ∀ p ∈ st.visited, p ∉ st.queue → p ≠ cur → Before links st.parent p cur
  child : ∀ v ∈ st.visited, v ≠ start → st.parent.lookup v = some cur →
    hopIdx links cur v < pre.length
  pmin : ∀ v ∈ st.visited, v ≠ start → ∀ p, st.parent.lookup v = some p →
    ∀ u ∈ st.visited, Adj links u v → u ≠ p → Before links st.parent p u

/-! ## Search invariants -/

theorem depth_cons_ne (k p v : String) (parent : List (String × String)) (h : v ≠ k) :
    depth ((k, p) :: parent) v = depth parent v := by
  simp [depth, h]

theorem depth_cons_self (k p : String) (parent : List (String × String)) :
    depth ((k, p) :: parent) k = depth parent p + 1 := by
  simp [depth]

theorem depth_le_length (parent : List (String × String)) :
    ∀ v, depth parent v ≤ parent.length := by
  induction parent with
  | nil => intro v; simp [depth]
  | cons e rest ih =>
    intro v
    by_cases h : v = e.1
    · have := ih e.2
      simp [depth, h]; omega
    · have := ih v
      simp [depth, h]; omega

theorem endpoints_length (links : List Link) : (endpoints links).length = 2 * links.length := by
  induction links with
  | nil => rfl
  | cons l ls ih => simp [endpoints, ih]; omega

theorem mem_endpoints_of_joins {links : List Link} {l : Link} {u v : String}
    (hl : l ∈ links) (h : l.joins u v) : v ∈ endpoints links := by
  induction links with
  | nil => cases hl
  | cons a ls ih =>
    rcases List.mem_cons.1 hl with rfl | hl
    · rcases h with ⟨_, h⟩ | ⟨_, h⟩ <;> simp [endpoints, ← h]
    · simp [endpoints, ih hl]

theorem initSearch_inv (links : List Link) (start end_ : String) :
    BfsInv links start end_ (initSearch start) := by
  constructor <;> simp [initSearch, depth]

theorem ScanInv.of_pop {links : List Link} {start end_ cur : String} {st : Search}
    {rest : List String} (inv : BfsInv links start end_ st) (hq : st.queue = cur :: rest)
    (hne : cur ≠ end_) :
    ScanInv links start end_ cur [] { st with queue := rest } := by
  have hnd := inv.qnodup
  have hs := inv.sorted
  rw [hq] at hnd hs
  have hcur : cur ∈ st.queue := by simp [hq]
  have hrest : ∀ q ∈ rest, q ∈ st.queue := fun q h => by simp [hq, h]
  have hnq : ∀ p, p ∉ rest → p ≠ cur → p ∉ st.queue := by
    intro p h1 h2 h3
    rw [hq] at h3
    rcases List.mem_cons.1 h3 with h | h
    · exact h2 h
    · exact h1 h
  refine
    { start_mem := inv.start_mem, d_start := inv.d_start, nodup := inv.nodup, univ := inv.univ
      par := inv.par, cur_mem := inv.queue_sub cur hcur, cur_nq := (List.nodup_cons.1 hnd).1
      queue_sub := fun q h => inv.queue_sub q (hrest q h)
      qnodup := (List.nodup_cons.1 hnd).2
      sorted := (List.pairwise_cons.1 hs).2
      lo := fun q h => (List.pairwise_cons.1 hs).1 q h
      hi := ?_, closed := ?_, done_le := ?_, done_ne := ?_, scanned := ?_ }
  · intro v hv
    by_cases hvq : v ∈ st.queue
    · exact inv.span cur hcur v hvq
    · exact Nat.le_succ_of_le (inv.done_le v hv hvq cur hcur)
  · intro p hp h1 h2
    exact inv.closed p hp (hnq p h1 h2)
  · intro p hp h1
    by_cases h2 : p = cur
    · simp [h2]
    · exact inv.done_le p hp (hnq p h1 h2) cur hcur
  · intro p hp h1
    by_cases h2 : p = cur
    · simpa [h2] using hne
    · exact inv.done_ne p hp (hnq p h1 h2)
  · intro l hl
    cases hl

theorem ScanInv.to_bfs {links : List Link} {start end_ cur : String} {st : Search}
    (inv : ScanInv links start end_ cur links st) : BfsInv links start end_ st := by
  refine
    { start_mem := inv.start_mem, d_start := inv.d_start, nodup := inv.nodup, univ := inv.univ
      par := inv.par, queue_sub := inv.queue_sub, qnodup := inv.qnodup, sorted := inv.sorted
      span := ?_, closed := ?_, done_le := ?_, done_ne := inv.done_ne }
  · intro a ha b hb
    have h1 := inv.lo a ha
    have h2 := inv.hi b (inv.queue_sub b hb)
    omega
  · intro p hp hpq u hu
    by_cases h : p = cur
    · subst h
      obtain ⟨l, hl, hc, hj⟩ := hu
      have hv := inv.scanned l hl hc u hj
      exact ⟨hv, inv.hi u hv⟩
    · exact inv.closed p hp hpq h u hu
  · intro p hp hpq q hq
    have h1 := inv.done_le p hp hpq
    have h2 := inv.lo q hq
    omega

theorem ScanInv.extend {links : List Link} {start end_ cur : String} {pre : List Link}
    {st : Search} (inv : ScanInv links start end_ cur pre st) (l : Link)
    (h : 0 < l.capacity → ∀ u, l.joins cur u → u ∈ st.visited) :
    ScanInv links start end_ cur (pre ++ [l]) st := by
  refine { inv with scanned := ?_ }
  intro l' hl'
  rcases List.mem_append.1 hl' with h' | h'
  · exact inv.scanned l' h'
  · simp at h'
    subst h'
    exact h

theorem ScanInv.discover {links : List Link} {start end_ cur next : String} {pre : List Link}
    {st : Search} (inv : ScanInv links start end_ cur pre st) (hadj : Adj links cur next) :
    ScanInv links start end_ cur pre (discover cur next st) ∧
      next ∈ (discover cur next st).visited := by
  unfold Lemin.discover
  by_cases hv : next ∈ st.visited
  · rw [if_pos hv]
    exact ⟨inv, hv⟩
  · rw [if_neg hv]
    have hne : ∀ v ∈ st.visited, v ≠ next := fun v h e => hv (e ▸ h)
    have hd : ∀ v ∈ st.visited, depth ((next, cur) :: st.parent) v = depth st.parent v :=
      fun v h => depth_cons_ne _ _ _ _ (hne v h)
    have hdn : depth ((next, cur) :: st.parent) next = depth st.parent cur + 1 :=
      depth_cons_self _ _ _
    have hnq : next ∉ st.queue := fun h => hv (inv.queue_sub _ h)
    have hold : ∀ p, p ∈ next :: st.visited → p ∉ st.queue ++ [next] →
        p ∈ st.visited ∧ p ∉ st.queue := by
      intro p h1 h2
      have h3 : p ≠ next := fun e => h2 (by simp [e])
      refine ⟨?_, fun h => h2 (List.mem_append_left _ h)⟩
      rcases List.mem_cons.1 h1 with h | h
      · exact absurd h h3
      · exact h
    refine ⟨?_, List.mem_cons_self _ _⟩
    refine
      { start_mem := List.mem_cons_of_mem _ inv.start_mem
        d_start := ?_, nodup := List.nodup_cons.2 ⟨hv, inv.nodup⟩
        univ := ?_, par := ?_
        cur_mem := List.mem_cons_of_mem _ inv.cur_mem
        cur_nq := ?_, queue_sub := ?_, qnodup := ?_, sorted := ?_, lo := ?_, hi := ?_
        closed := ?_, done_le := ?_, done_ne := ?_, scanned := ?_ }
    · show depth ((next, cur) :: st.parent) start = 0
      rw [hd _ inv.start_mem]; exact inv.d_start
    · intro v h
      rcases List.mem_cons.1 h with h | h
      · subst h
        obtain ⟨l, hl, _, hj⟩ := hadj
        exact List.mem_cons_of_mem _ (mem_endpoints_of_joins hl hj)
      · exact inv.univ v h
    · intro v h hvs
      show ∃ p, List.lookup v ((next, cur) :: st.parent) = some p ∧ p ∈ next :: st.visited ∧
        Adj links p v ∧
          depth ((next, cur) :: st.parent) v = depth ((next, cur) :: st.parent) p + 1
      rcases List.mem_cons.1 h with h | h
      · subst h
        refine ⟨cur, by simp [List.lookup], List.mem_cons_of_mem _ inv.cur_mem, hadj, ?_⟩
        rw [hdn, hd _ inv.cur_mem]
      · obtain ⟨p, h1, h2, h3, h4⟩ := inv.par v h hvs
        refine ⟨p, ?_, List.mem_cons_of_mem _ h2, h3, ?_⟩
        · have : (v == next) = false := by simpa using hne v h
          simp [List.lookup, this, h1]
        · rw [hd _ h, hd _ h2]; exact h4
    · show cur ∉ st.queue ++ [next]
      intro h
      rcases List.mem_append.1 h with h | h
      · exact inv.cur_nq h
      · simp at h; exact hne _ inv.cur_mem h
    · intro q h
      show q ∈ next :: st.visited
      rcases List.mem_append.1 h with h | h
      · exact List.mem_cons_of_mem _ (inv.queue_sub q h)
      · simp at h; simp [h]
    · show (st.queue ++ [next]).Nodup
      rw [List.nodup_append]
      refine ⟨inv.qnodup, List.nodup_singleton _, ?_⟩
      intro a ha hb
      simp at hb; subst hb; exact hnq ha
    · show (st.queue ++ [next]).Pairwise
        (fun a b => depth ((next, cur) :: st.parent) a ≤ depth ((next, cur) :: st.parent) b)
      rw [List.pairwise_append]
      refine ⟨?_, List.pairwise_singleton _ _, ?_⟩
      · refine inv.sorted.imp_of_mem ?_
        intro a b ha hb hab
        rw [hd _ (inv.queue_sub a ha), hd _ (inv.queue_sub b hb)]; exact hab
      · intro a ha b hb
        simp at hb; subst hb
        rw [hd _ (inv.queue_sub a ha), hdn]
        exact inv.hi a (inv.queue_sub a ha)
    · intro q h
      show depth ((next, cur) :: st.parent) cur ≤ depth ((next, cur) :: st.parent) q
      rw [hd _ inv.cur_mem]
      rcases List.mem_append.1 h with h | h
      · rw [hd _ (inv.queue_sub q h)]; exact inv.lo q h
      · simp at h; subst h; rw [hdn]; exact Nat.le_succ _
    · intro v h
      show depth ((next, cur) :: st.parent) v ≤ depth ((next, cur) :: st.parent) cur + 1
      rw [hd _ inv.cur_mem]
      rcases List.mem_cons.1 h with h | h
      · subst h; rw [hdn]
      · rw [hd _ h]; exact inv.hi v h
    · intro p h1 h2 h3 u hu
      show u ∈ next :: st.visited ∧
        depth ((next, cur) :: st.parent) u ≤ depth ((next, cur) :: st.parent) p + 1
      obtain ⟨hp, hpq⟩ := hold p h1 h2
      obtain ⟨hu1, hu2⟩ := inv.closed p hp hpq h3 u hu
      refine ⟨List.mem_cons_of_mem _ hu1, ?_⟩
      rw [hd _ hu1, hd _ hp]; exact hu2
    · intro p h1 h2
      show depth ((next, cur) :: st.parent) p ≤ depth ((next, cur) :: st.parent) cur
      obtain ⟨hp, hpq⟩ := hold p h1 h2
      rw [hd _ hp, hd _ inv.cur_mem]; exact inv.done_le p hp hpq
    · intro p h1 h2
      obtain ⟨hp, hpq⟩ := hold p h1 h2
      exact inv.done_ne p hp hpq
    · intro l hl hc u hu
      exact List.mem_cons_of_mem _ (inv.scanned l hl hc u hu)

theorem discover_visited_mono (cur next : String) (st : Search) :
    ∀ v ∈ st.visited, v ∈ (Lemin.discover cur next st).visited := by
  intro v hv
  unfold Lemin.discover
  split
  · exact hv
  · exact List.mem_cons_of_mem _ hv

theorem scanLinks_inv {links : List Link} {start end_ cur : String} :
    ∀ (ls pre : List Link) (st : Search), pre ++ ls = links →
      ScanInv links start end_ cur pre st →
      ScanInv links start end_ cur links (scanLinks cur ls st) := by
  intro ls
  induction ls with
  | nil =>
    intro pre st h inv
    simp at h; subst h
    simpa [scanLinks] using inv
  | cons l ls ih =>
    intro pre st h inv
    have hl : l ∈ links := by rw [← h]; simp
    have h' : (pre ++ [l]) ++ ls = links := by simpa using h
    unfold scanLinks
    by_cases hc : 0 < l.capacity
    · by_cases hf : l.from_ = cur
      · simp only [hc, hf, if_true]
        have hadj : Adj links cur l.to_ := ⟨l, hl, hc, Or.inl ⟨hf, rfl⟩⟩
        obtain ⟨inv', hm⟩ := inv.discover hadj
        refine ih _ _ h' (inv'.extend l ?_)
        intro _ u hu
        rcases hu with ⟨_, hu⟩ | ⟨hu1, hu2⟩
        · rw [← hu]; exact hm
        · have hut : u = l.to_ := by rw [← hu2, hf, hu1]
          rw [hut]; exact hm
      · by_cases ht : l.to_ = cur
        · simp only [hc, hf, ht, if_true, if_false]
          have hadj : Adj links cur l.from_ := ⟨l, hl, hc, Or.inr ⟨ht, rfl⟩⟩
          obtain ⟨inv', hm⟩ := inv.discover hadj
          refine ih _ _ h' (inv'.extend l ?_)
          intro _ u hu
          rcases hu with ⟨hu1, _⟩ | ⟨_, hu⟩
          · exact absurd hu1 hf
          · rw [← hu]; exact hm
        · simp only [hc, hf, ht, if_true, if_false]
          refine ih _ _ h' (inv.extend l ?_)
          intro _ u hu
          rcases hu with ⟨hu1, _⟩ | ⟨hu1, _⟩
          · exact absurd hu1 hf
          · exact absurd hu1 ht
    · simp only [hc, if_false]
      exact ih _ _ h' (inv.extend l (fun h => absurd h hc))

theorem discover_length (cur next : String) (st : Search) :
    (Lemin.discover cur next st).queue.length + st.visited.length =
      st.queue.length + (Lemin.discover cur next st).visited.length := by
  unfold Lemin.discover
  split
  · simp
  · simp; omega

theorem scanLinks_length (cur : String) :
    ∀ (ls : List Link) (st : Search),
      (scanLinks cur ls st).queue.length + st.visited.length =
        st.queue.length + (scanLinks cur ls st).visited.length := by
  intro ls
  induction ls with
  | nil => intro st; simp [scanLinks]
  | cons l ls ih =>
    intro st
    unfold scanLinks
    have h1 := discover_length cur l.to_ st
    have h2 := discover_length cur l.from_ st
    have h3 := ih (Lemin.discover cur l.to_ st)
    have h4 := ih (Lemin.discover cur l.from_ st)
    have h5 := ih st
    split
    · split
      · omega
      · split
        · omega
        · omega
    · omega

theorem BfsInv.visited_le {links : List Link} {start end_ : String} {st : Search}
    (inv : BfsInv links start end_ st) : st.visited.length ≤ 2 * links.length + 1 := by
  have h := (List.subperm_of_subset inv.nodup inv.univ).length_le
  simpa [endpoints_length] using h

theorem reconstruct_spec {links : List Link} {start end_ : String} {st : Search}
    (inv : BfsInv links start end_ st) :
    ∀ (fuel : Nat) (v : String) (path : List String), v ∈ st.visited →
      depth st.parent v < fuel →
      ∃ pre, reconstruct st.parent start fuel v path = some (pre ++ path) ∧
        pre.length = depth st.parent v ∧ (pre ++ [v]).head? = some start ∧
        List.Chain' (Adj links) (pre ++ [v]) := by
  intro fuel
  induction fuel with
  | zero => intro v path _ h; omega
  | succ fuel ih =>
    intro v path hv hd
    by_cases hs : v = start
    · refine ⟨[], ?_, ?_, ?_, ?_⟩
      · simp [reconstruct, hs]
      · simp [hs, inv.d_start]
      · simp [hs]
      · simp
    · obtain ⟨p, h1, h2, h3, h4⟩ := inv.par v hv hs
      have hp : parentOf st.parent v = p := by simp [parentOf, h1]
      obtain ⟨pre, e1, e2, e3, e4⟩ := ih p (p :: path) h2 (by omega)
      refine ⟨pre ++ [p], ?_, ?_, ?_, ?_⟩
      · simp [reconstruct, hs, hp, e1]
      · simp [e2, h4]
      · rw [List.head?_append_of_ne_nil _ (by simp)]
        exact e3
      · refine List.Chain'.append e4 (List.chain'_singleton v) ?_
        intro x hx y hy
        simp at hx hy
        subst hx hy
        exact h3

/-- While `cur` is at the head of the queue, every room at the end of a walk
of `k` hops from a room of level at most `k0` has level at most `k0 + k`,
unless `cur` itself has. -/
theorem BfsInv.walk_level {links : List Link} {start end_ cur : String} {st : Search}
    {rest : List String} (inv : BfsInv links start end_ st) (hq : st.queue = cur :: rest) :
    ∀ (w : List String) (v : String) (k : Nat), List.Chain' (Adj links) (v :: w) →
      ((v ∈ st.visited ∧ depth st.parent v ≤ k) ∨ depth st.parent cur ≤ k) →
      ∀ x, (v :: w).getLast? = some x →
        (x ∈ st.visited ∧ depth st.parent x ≤ k + w.length) ∨
          depth st.parent cur ≤ k + w.length := by
  intro w
  induction w with
  | nil =>
    intro v k _ h x hx
    simp at hx
    subst hx
    simpa using h
  | cons u w ih =>
    intro v k hc h x hx
    rw [List.chain'_cons] at hc
    have hx' : (u :: w).getLast? = some x := by
      simpa [List.getLast?_cons_cons] using hx
    have hstep : (u ∈ st.visited ∧ depth st.parent u ≤ k + 1) ∨
        depth st.parent cur ≤ k + 1 := by
      rcases h with ⟨hv, hd⟩ | h
      · by_cases hlt : depth st.parent cur ≤ k
        · exact Or.inr (by omega)
        · have hvq : v ∉ st.queue := by
            intro hmem
            rw [hq] at hmem
            have hs := inv.sorted
            rw [hq] at hs
            rcases List.mem_cons.1 hmem with e | e
            · subst e; omega
            · have := (List.pairwise_cons.1 hs).1 v e
              omega
          obtain ⟨hu1, hu2⟩ := inv.closed v hv hvq u hc.1
          exact Or.inl ⟨hu1, by omega⟩
      · exact Or.inr (by omega)
    have := ih u (k + 1) hc.2 hstep x hx'
    simp only [List.length_cons]
    rcases this with ⟨h1, h2⟩ | h2
    · exact Or.inl ⟨h1, by omega⟩
    · exact Or.inr (by omega)

/-- When the queue is empty the visited rooms are closed under adjacency. -/
theorem BfsInv.walk_visited {links : List Link} {start end_ : String} {st : Search}
    (inv : BfsInv links start end_ st) (hq : st.queue = []) :
    ∀ (w : List String) (v : String), List.Chain' (Adj links) (v :: w) → v ∈ st.visited →
      ∀ x, (v :: w).getLast? = some x → x ∈ st.visited := by
  intro w
  induction w with
  | nil =>
    intro v _ h x hx
    simp at hx
    subst hx
    exact h
  | cons u w ih =>
    intro v hc h x hx
    rw [List.chain'_cons] at hc
    have hx' : (u :: w).getLast? = some x := by
      simpa [List.getLast?_cons_cons] using hx
    have hvq : v ∉ st.queue := by simp [hq]
    exact ih u hc.2 (inv.closed v h hvq u hc.1).1 x hx'

theorem bfsLoop_spec {links : List Link} {start end_ : String} :
    ∀ (fuel : Nat) (st : Search), BfsInv links start end_ st →
      2 * links.length + 2 + st.queue.length ≤ fuel + st.visited.length →
      (∃ path, bfsLoop links start end_ fuel st = some (true, path) ∧
          IsWalk links start end_ path ∧
          ∀ w, IsWalk links start end_ w → path.length ≤ w.length) ∨
        (bfsLoop links start end_ fuel st = some (false, []) ∧
          ¬ Reachable links start end_) := by
  intro fuel
  induction fuel with
  | zero =>
    intro st inv h
    have := inv.visited_le
    omega
  | succ fuel ih =>
    intro st inv h
    unfold bfsLoop
    cases hq : st.queue with
    | nil =>
      right
      refine ⟨rfl, ?_⟩
      rintro ⟨w, hw1, hw2, hw3⟩
      cases w with
      | nil => simp at hw1
      | cons v w =>
        simp at hw1
        subst hw1
        have hx := inv.walk_visited hq w v hw3 inv.start_mem end_ hw2
        exact inv.done_ne end_ hx (by simp [hq]) rfl
    | cons cur rest =>
      simp only
      by_cases he : cur = end_
      · left
        rw [if_pos he]
        have hcur : cur ∈ st.visited := inv.queue_sub cur (by simp [hq])
        obtain ⟨pre, e1, e2, e3, e4⟩ :=
          reconstruct_spec inv (st.parent.length + 1) cur [end_] hcur
            (Nat.lt_succ_of_le (depth_le_length _ _))
        refine ⟨pre ++ [end_], by simp [e1], ⟨?_, ?_, ?_⟩, ?_⟩
        · rw [← he]; exact e3
        · simp
        · rw [← he]; exact e4
        · rintro w ⟨hw1, hw2, hw3⟩
          cases w with
          | nil => simp at hw1
          | cons v w =>
            simp at hw1
            subst hw1
            have := inv.walk_level hq w v 0 hw3
              (Or.inl ⟨inv.start_mem, by simp [inv.d_start]⟩) end_ hw2
            simp only [List.length_append, List.length_cons, List.length_nil, e2]
            rw [← he] at this
            rcases this with ⟨_, h2⟩ | h2 <;> omega
      · rw [if_neg he]
        have sinv := @scanLinks_inv links start end_ cur links []
          { st with queue := rest } (by simp) (ScanInv.of_pop inv hq he)
        have hlen := scanLinks_length cur links { st with queue := rest }
        simp only at hlen
        rw [hq] at h
        simp only [List.length_cons] at h
        exact ih _ sinv.to_bfs (by omega)

theorem findPath_spec (links : List Link) (start end_ : String) :
    (∃ path, findPath links start end_ = some (true, path) ∧
        IsWalk links start end_ path ∧
        ∀ w, IsWalk links start end_ w → path.length ≤ w.length) ∨
      (findPath links start end_ = some (false, []) ∧ ¬ Reachable links start end_) := by
  unfold findPath
  exact bfsLoop_spec _ _ (initSearch_inv links start end_) (by simp [initSearch])

/-- `findPath` returns on every input: the fuel of the model is never
exhausted. -/
theorem findPath_total (links : List Link) (start end_ : String) :
    ∃ r, findPath links start end_ = some r := by
  rcases findPath_spec links start end_ with ⟨p, h, _⟩ | ⟨h, _⟩
  · exact ⟨_, h⟩
  · exact ⟨_, h⟩

/-! ## Claims about findPath -/

/-- C2 (route validity): a path returned by `findPath` with `found = true` is
non-empty, starts at `start`, ends at `end_`, and every consecutive pair of
its rooms is joined, in one direction or the other, by a link of the list
with positive capacity. -/
theorem findPath_route_valid (links : List Link) (start end_ : String) (path : List String)
    (h : findPath links start end_ = some (true, path)) :
    path ≠ [] ∧ path.head? = some start ∧ path.getLast? = some end_ ∧
      List.Chain' (fun a b => ∃ l ∈ links, 0 < l.capacity ∧
        ((l.from_ = a ∧ l.to_ = b) ∨ (l.to_ = a ∧ l.from_ = b))) path := by
  rcases findPath_spec links start end_ with ⟨p, hp, ⟨h1, h2, h3⟩, _⟩ | ⟨hf, _⟩
  · rw [hp] at h
    simp at h
    subst h
    refine ⟨?_, h1, h2, h3⟩
    intro e
    simp [e] at h1
  · rw [hf] at h
    simp at h

theorem findPath_route_valid_witness :
    ["S", "A", "E"] ≠ [] ∧ ["S", "A", "E"].head? = some "S" ∧
      ["S", "A", "E"].getLast? = some "E" ∧
      List.Chain' (fun a b => ∃ l ∈ [mkLink "S" "A", mkLink "A" "E"], 0 < l.capacity ∧
        ((l.from_ = a ∧ l.to_ = b) ∨ (l.to_ = a ∧ l.from_ = b))) ["S", "A", "E"] :=
  findPath_route_valid [mkLink "S" "A", mkLink "A" "E"] "S" "E" ["S", "A", "E"] (by decide)

/-- C3 (shortest path): the hop count `len(path) - 1` of a path returned by
`findPath` is at most the hop count of every walk from `start` to `end_`
over links of positive capacity, used in either direction. -/
theorem findPath_shortest (links : List Link) (start end_ : String) (path w : List String)
    (h : findPath links start end_ = some (true, path))
    (hw : IsWalk links start end_ w) :
    path.length - 1 ≤ w.length - 1 := by
  rcases findPath_spec links start end_ with ⟨p, hp, _, hmin⟩ | ⟨hf, _⟩
  · rw [hp] at h
    simp at h
    subst h
    have := hmin w hw
    omega
  · rw [hf] at h
    simp at h

theorem findPath_shortest_witness :
    IsWalk [mkLink "S" "B", mkLink "B" "A", mkLink "S" "A", mkLink "A" "E"] "S" "E"
        ["S", "B", "A", "E"] ∧
      ["S", "A", "E"].length - 1 ≤ ["S", "B", "A", "E"].length - 1 :=
  ⟨by simp [IsWalk, Adj, Link.joins, mkLink],
    findPath_shortest [mkLink "S" "B", mkLink "B" "A", mkLink "S" "A", mkLink "A" "E"] "S" "E"
      ["S", "A", "E"] ["S", "B", "A", "E"] (by decide) (by simp [IsWalk, Adj, Link.joins, mkLink])⟩

/-- C4 (search soundness and completeness): `findPath` answers `found = true`
exactly when `end_` is reachable from `start` by a walk (possibly of no hop)
over links of positive capacity used in either direction, and it answers
`(false, nil)` exactly when there is no such walk. -/
theorem findPath_found_iff_reachable (links : List Link) (start end_ : String) :
    ((∃ path, findPath links start end_ = some (true, path)) ↔ Reachable links start end_) ∧
      (findPath links start end_ = some (false, []) ↔ ¬ Reachable links start end_) := by
  rcases findPath_spec links start end_ with ⟨p, hp, hw, _⟩ | ⟨hf, hr⟩
  · have hre : Reachable links start end_ := ⟨p, hw⟩
    refine ⟨⟨fun _ => hre, fun _ => ⟨p, hp⟩⟩, ⟨?_, fun h => absurd hre h⟩⟩
    intro h
    rw [hp] at h
    simp at h
  · refine ⟨⟨?_, fun h => absurd h hr⟩, ⟨fun _ => hr, fun _ => hf⟩⟩
    rintro ⟨path, h⟩
    rw [hf] at h
    simp at h

/-! ## Scheduler invariants -/

theorem mem_setState {antStates : List (Nat × antState)} {ant : Nat} {state : antState}
    {e : Nat × antState} (h : e ∈ setState antStates ant state) :
    e = (ant, state) ∨ (e ∈ antStates ∧ e.1 ≠ ant) := by
  unfold setState at h
  by_cases hany : (antStates.any (fun e => e.1 = ant)) = true
  · rw [if_pos hany] at h
    obtain ⟨x, hx, rfl⟩ := List.mem_map.1 h
    by_cases hk : x.1 = ant
    · simp [hk]
    · simp [hk, hx]
  · rw [if_neg hany] at h
    rcases List.mem_append.1 h with h | h
    · right
      refine ⟨h, fun hk => ?_⟩
      exact hany (List.any_eq_true.2 ⟨e, h, by simp [hk]⟩)
    · left
      simpa using h

theorem Exclusive.setState {antStates : List (Nat × antState)} (hex : Exclusive antStates)
    (ant : Nat) (state : antState)
    (hfree : ∀ e ∈ antStates, e.1 ≠ ant → e.2.finished = false →
      e.2.pathIdx = state.pathIdx → e.2.position ≠ state.position) :
    Exclusive (setState antStates ant state) := by
  intro a b sa sb ha hb hab hfa hfb hpos
  rcases mem_setState ha with ea | ⟨ma, hka⟩ <;> rcases mem_setState hb with eb | ⟨mb, hkb⟩
  · simp only [Prod.mk.injEq] at ea eb
    exact hab (ea.1.trans eb.1.symm)
  · simp only [Prod.mk.injEq] at ea
    have h1 := hfree (b, sb) mb hkb hfb
    rw [← ea.2] at h1
    exact h1 hpos.1.symm hpos.2.symm
  · simp only [Prod.mk.injEq] at eb
    have h1 := hfree (a, sa) ma hka hfa
    rw [← eb.2] at h1
    exact h1 hpos.1 hpos.2
  · exact hex a b sa sb ma mb hab hfa hfb hpos

theorem firstRoomTaken_false {antStates : List (Nat × antState)} {pathIdx : Nat}
    (h : firstRoomTaken antStates pathIdx = false) :
    ∀ e ∈ antStates, e.2.finished = false → e.2.pathIdx = pathIdx → e.2.position ≠ 1 := by
  intro e he hf hp hpos
  have : firstRoomTaken antStates pathIdx = true :=
    List.any_eq_true.2 ⟨e, he, by simp [hf, hp, hpos]⟩
  rw [h] at this
  cases this

theorem nextPosTaken_false {antStates : List (Nat × antState)} {ant pathIdx nextPos : Nat}
    (h : nextPosTaken antStates ant pathIdx nextPos = false) :
    ∀ e ∈ antStates, e.1 ≠ ant → e.2.finished = false → e.2.pathIdx = pathIdx →
      e.2.position ≠ nextPos := by
  intro e he hk hf hp hpos
  have : nextPosTaken antStates ant pathIdx nextPos = true :=
    List.any_eq_true.2 ⟨e, he, by simp [hk, hf, hp, hpos]⟩
  rw [h] at this
  cases this

theorem startNewAnt_exclusive {paths : List (List String)} {antAssignments : List Nat}
    {antCount : Nat} {s : Sched} {r : Sched × List Move} (hex : Exclusive s.antStates)
    (h : startNewAnt paths antAssignments antCount s = some r) : Exclusive r.1.antStates := by
  unfold startNewAnt at h
  split at h
  · split at h
    · cases h
    · rename_i pathIdx _
      split at h
      · cases h; exact hex
      · rename_i htaken
        split at h
        · cases h
        · split at h
          · cases h
          · cases h
            refine hex.setState _ _ ?_
            intro e he _ hf hp
            exact firstRoomTaken_false (by simpa using htaken) e he hf hp
  · cases h; exact hex

theorem advanceAnt_exclusive {paths : List (List String)} {ant : Nat} {s : Sched}
    {moves : List Move} {r : Sched × List Move} (hex : Exclusive s.antStates)
    (h : advanceAnt paths ant s moves = some r) : Exclusive r.1.antStates := by
  unfold advanceAnt at h
  split at h
  · cases h; exact hex
  · rename_i state _
    split at h
    · cases h; exact hex
    · split at h
      · cases h
      · split at h
        · split at h
          · cases h; exact hex
          · rename_i htaken
            have hfree := nextPosTaken_false (by simpa using htaken)
            split at h
            · cases h
            · split at h
              · cases h
                exact hex.setState _ _ hfree
              · cases h
                exact hex.setState _ _ hfree
        · cases h; exact hex

theorem advanceLoop_exclusive {paths : List (List String)} :
    ∀ (ants : List Nat) (s : Sched) (moves : List Move) (r : Sched × List Move),
      Exclusive s.antStates → advanceLoop paths ants s moves = some r →
      Exclusive r.1.antStates := by
  intro ants
  induction ants with
  | nil =>
    intro s moves r hex h
    simp [advanceLoop] at h
    subst h
    exact hex
  | cons ant rest ih =>
    intro s moves r hex h
    unfold advanceLoop at h
    split at h
    · cases h
    · rename_i r' hr'
      exact ih _ _ _ (advanceAnt_exclusive hex hr') h

theorem turn_exclusive {paths : List (List String)} {antAssignments : List Nat}
    {antCount : Nat} {s : Sched} {r : Sched × List Move} (hex : Exclusive s.antStates)
    (h : turn paths antAssignments antCount s = some r) : Exclusive r.1.antStates := by
  unfold turn at h
  split at h
  · cases h
  · rename_i r' hr'
    exact advanceLoop_exclusive _ _ _ _ (startNewAnt_exclusive hex hr') h

theorem afterTurns_exclusive {paths : List (List String)} {antAssignments : List Nat}
    {antCount : Nat} :
    ∀ (n : Nat) (s s' : Sched), Exclusive s.antStates →
      afterTurns paths antAssignments antCount n s = some s' → Exclusive s'.antStates := by
  intro n
  induction n with
  | zero =>
    intro s s' hex h
    simp [afterTurns] at h
    subst h
    exact hex
  | succ n ih =>
    intro s s' hex h
    unfold afterTurns at h
    split at h
    · split at h
      · cases h
      · rename_i r hr
        exact ih _ _ (turn_exclusive hex hr) h
    · cases h

/-! ## Claims about moveAnts -/

/-- C9 (per-route occupancy exclusion): after every turn of `moveAnts`, no
two distinct started, unfinished ants have both the same route index and the
same position index. -/
theorem moveAnts_occupancy_exclusive (paths : List (List String)) (antCount n : Nat)
    (s : Sched) (h : schedAfter paths antCount n = some s) :
    ∀ a b sa sb, (a, sa) ∈ s.antStates → (b, sb) ∈ s.antStates → a ≠ b →
      sa.finished = false → sb.finished = false →
      ¬ (sa.pathIdx = sb.pathIdx ∧ sa.position = sb.position) := by
  have h0 : Exclusive initSched.antStates := by
    intro a b sa sb ha
    simp [initSched] at ha
  cases hasg : assignAnts paths antCount with
  | none =>
    rw [schedAfter, hasg] at h
    exact absurd h (by simp)
  | some antAssignments =>
    rw [schedAfter, hasg] at h
    exact afterTurns_exclusive n initSched s h0 h

theorem moveAnts_occupancy_exclusive_witness :
    schedAfter [["S", "A", "B", "C", "E"]] 3 3 =
        some { antStates := [(1, { pathIdx := 0, position := 4, finished := true }),
                 (2, { pathIdx := 0, position := 3, finished := false }),
                 (3, { pathIdx := 0, position := 2, finished := false })]
               activeAnts := 2, startedAnts := 3, finishedAnts := 1 } ∧
      Exclusive [(1, { pathIdx := 0, position := 4, finished := true }),
        (2, { pathIdx := 0, position := 3, finished := false }),
        (3, { pathIdx := 0, position := 2, finished := false })] :=
  ⟨by decide,
    moveAnts_occupancy_exclusive [["S", "A", "B", "C", "E"]] 3 3
      { antStates := [(1, { pathIdx := 0, position := 4, finished := true }),
          (2, { pathIdx := 0, position := 3, finished := false }),
          (3, { pathIdx := 0, position := 2, finished := false })]
        activeAnts := 2, startedAnts := 3, finishedAnts := 1 }
      (by decide)⟩

/-! ## The extraction loop with an endpoint on no link -/

theorem mem_endpoints_of_adj {links : List Link} {u v : String} (h : Adj links u v) :
    u ∈ endpoints links ∧ v ∈ endpoints links := by
  obtain ⟨l, hl, _, hj⟩ := h
  refine ⟨?_, mem_endpoints_of_joins hl hj⟩
  have hj' : l.joins v u := by
    rcases hj with ⟨h1, h2⟩ | ⟨h1, h2⟩
    · exact Or.inr ⟨h2, h1⟩
    · exact Or.inl ⟨h2, h1⟩
  exact mem_endpoints_of_joins hl hj'

theorem chain_last_mem_endpoints {links : List Link} :
    ∀ (w : List String) (u v : String), List.Chain' (Adj links) (u :: v :: w) →
      ∀ x, (u :: v :: w).getLast? = some x → x ∈ endpoints links := by
  intro w
  induction w with
  | nil =>
    intro u v hc x hx
    rw [List.chain'_cons] at hc
    simp at hx
    subst hx
    exact (mem_endpoints_of_adj hc.1).2
  | cons y w ih =>
    intro u v hc x hx
    rw [List.chain'_cons] at hc
    exact ih v y hc.2 x (by simpa [List.getLast?_cons_cons] using hx)

/-- With distinct endpoints of which one lies on no link, nothing is
reachable and the loop of `main` returns the empty route list at once. -/
theorem extractLoop_absent_endpoint (links : List Link) (start end_ : String) (fuel : Nat)
    (hne : start ≠ end_) (habs : start ∉ endpoints links ∨ end_ ∉ endpoints links) :
    extractLoop start end_ (fuel + 1) links [] = some ([], links) := by
  have hnr : ¬ Reachable links start end_ := by
    rintro ⟨w, hw1, hw2, hw3⟩
    cases w with
    | nil => simp at hw1
    | cons u w =>
      simp at hw1
      subst hw1
      cases w with
      | nil =>
        simp at hw2
        exact hne hw2
      | cons v w =>
        rcases habs with h | h
        · exact h (mem_endpoints_of_adj (List.chain'_cons.1 hw3).1).1
        · exact h (chain_last_mem_endpoints w u v hw3 end_ hw2)
  rcases findPath_spec links start end_ with ⟨p, _, hw, _⟩ | ⟨hf, _⟩
  · exact absurd ⟨p, hw⟩ hnr
  · simp [extractLoop, hf]

/-! ## The extraction loop on inputs where it misbehaves -/

theorem findPath_same_endpoints (links : List Link) (s : String) :
    findPath links s s = some (true, [s]) := by
  simp [findPath, bfsLoop, initSearch, reconstruct]

theorem extractLoop_duplicateLinkStuck :
    ∀ (fuel : Nat) (paths : List (List String)),
      extractLoop "S" "E" fuel duplicateLinkStuck paths = none := by
  have h1 : findPath duplicateLinkStuck "S" "E" = some (true, ["S", "E"]) := by decide
  have h2 : updateCapacities duplicateLinkStuck ["S", "E"] = duplicateLinkStuck := by decide
  intro fuel
  induction fuel with
  | zero => intro paths; rfl
  | succ fuel ih =>
    intro paths
    simp only [extractLoop, h1, h2]
    exact ih _

/-- C1, evaluated at `parallelLinks` with start `S` and end `E`: the loop of
`main` finishes with three routes that all traverse the pair `S`, `A`, which
only two links join; the second of them is never cleared and carries the
last two routes. -/
theorem extractLoop_parallelLinks (n : Nat) :
    extractLoop "S" "E" (n + 4) parallelLinks [] =
      some ([["S", "A", "E"], ["S", "A", "B", "E"], ["S", "A", "C", "E"]],
        [{ from_ := "S", to_ := "A", capacity := 0 }, mkLink "S" "A",
          { from_ := "A", to_ := "E", capacity := 0 },
          { from_ := "A", to_ := "B", capacity := 0 },
          { from_ := "B", to_ := "E", capacity := 0 },
          { from_ := "A", to_ := "C", capacity := 0 },
          { from_ := "C", to_ := "E", capacity := 0 }]) ∧
      (parallelLinks.filter (fun l => l.joins "S" "A")).length = 2 := by
  refine ⟨?_, by decide⟩
  have h1 : findPath parallelLinks "S" "E" = some (true, ["S", "A", "E"]) := by decide
  have h2 : findPath (updateCapacities parallelLinks ["S", "A", "E"]) "S" "E" =
      some (true, ["S", "A", "B", "E"]) := by decide
  have h3 : findPath (updateCapacities (updateCapacities parallelLinks ["S", "A", "E"])
      ["S", "A", "B", "E"]) "S" "E" = some (true, ["S", "A", "C", "E"]) := by decide
  have h4 : findPath (updateCapacities (updateCapacities
      (updateCapacities parallelLinks ["S", "A", "E"]) ["S", "A", "B", "E"])
      ["S", "A", "C", "E"]) "S" "E" = some (false, []) := by decide
  have h5 : updateCapacities (updateCapacities
      (updateCapacities parallelLinks ["S", "A", "E"]) ["S", "A", "B", "E"])
      ["S", "A", "C", "E"] =
      [{ from_ := "S", to_ := "A", capacity := 0 }, mkLink "S" "A",
        { from_ := "A", to_ := "E", capacity := 0 },
        { from_ := "A", to_ := "B", capacity := 0 },
        { from_ := "B", to_ := "E", capacity := 0 },
        { from_ := "A", to_ := "C", capacity := 0 },
        { from_ := "C", to_ := "E", capacity := 0 }] := by decide
  simp only [extractLoop, h1, h2, h3, h4, List.nil_append, List.cons_append]
  rw [h5]

/-- C5, evaluated at `duplicateLink` with start `S` and end `E`: each search
finds `[S, E]` through the second copy of the link while `updateCapacities`
clears the first copy again, so the loop of `main` never stops, whatever the
number of iterations allowed. -/
theorem extractLoop_duplicateLink_diverges :
    findPath duplicateLinkStuck "S" "E" = some (true, ["S", "E"]) ∧
      updateCapacities duplicateLinkStuck ["S", "E"] = duplicateLinkStuck ∧
      ∀ fuel, extractLoop "S" "E" fuel duplicateLink [] = none := by
  refine ⟨by decide, by decide, ?_⟩
  have h1 : findPath duplicateLink "S" "E" = some (true, ["S", "E"]) := by decide
  have h2 : updateCapacities duplicateLink ["S", "E"] = duplicateLinkStuck := by decide
  intro fuel
  cases fuel with
  | zero => rfl
  | succ fuel =>
    simp only [extractLoop, h1, h2]
    exact extractLoop_duplicateLinkStuck fuel _

/-- C6, evaluated at `start == end` (in particular when both are the empty
identifier): `findPath` answers `(true, [start])`, `updateCapacities` leaves
the links as they are, and the loop of `main` never stops. -/
theorem extractLoop_same_endpoints_diverges (links : List Link) (s : String) :
    findPath links s s = some (true, [s]) ∧ updateCapacities links [s] = links ∧
      ∀ fuel paths, extractLoop s s fuel links paths = none := by
  refine ⟨findPath_same_endpoints links s, rfl, ?_⟩
  intro fuel
  induction fuel with
  | zero => intro paths; rfl
  | succ fuel ih =>
    intro paths
    simp only [extractLoop, findPath_same_endpoints, updateCapacities]
    exact ih _

/-! ## The scheduler on inputs where it misbehaves -/

theorem turnLoop_directRouteStuck :
    ∀ (fuel : Nat) (out : List (List Move)),
      turnLoop [["S", "E"]] [0, 0] 1 fuel directRouteStuck out = Run.outOfFuel := by
  have h1 : turn [["S", "E"]] [0, 0] 1 directRouteStuck = some (directRouteStuck, []) := by
    decide
  have h2 : directRouteStuck.finishedAnts < 1 := by decide
  intro fuel
  induction fuel with
  | zero => intro out; rfl
  | succ fuel ih =>
    intro out
    simp only [turnLoop, h1, h2, if_true]
    exact ih _

/-- C7, evaluated at two routes of equal hop length and two ants (Scenario
B): both ants are assigned to route index 1, because the zero entries of
`antAssignments` (slot 0 and the ants not yet assigned) are counted as ants
of route 0. -/
theorem assignAnts_equal_routes :
    assignAnts [["S", "A", "E"], ["S", "B", "E"]] 2 = some [0, 1, 1] ∧
      countAntsInPath [0, 0, 0] 0 = 3 := by
  decide

/-- C8, evaluated at the single route `[S, E]` and one ant: the ant is
admitted at position 1, the last index of its route, is never marked
finished, and the turn loop never stops. -/
theorem moveAnts_direct_route_diverges :
    turn [["S", "E"]] [0, 0] 1 initSched = some (directRouteStuck, [(1, "E")]) ∧
      turn [["S", "E"]] [0, 0] 1 directRouteStuck = some (directRouteStuck, []) ∧
      ∀ fuel, moveAnts fuel [["S", "E"]] 1 = Run.outOfFuel := by
  refine ⟨by decide, by decide, ?_⟩
  have h0 : assignAnts [["S", "E"]] 1 = some [0, 0] := by decide
  have h1 : turn [["S", "E"]] [0, 0] 1 initSched = some (directRouteStuck, [(1, "E")]) := by
    decide
  have h2 : initSched.finishedAnts < 1 := by decide
  intro fuel
  cases fuel with
  | zero => simp only [moveAnts, h0, turnLoop]
  | succ fuel =>
    simp only [moveAnts, h0, turnLoop, h1, h2, if_true]
    exact turnLoop_directRouteStuck fuel _

/-- C10, evaluated at the single route `[S, A, E]` and one ant (Scenario A):
the only batch printed holds two moves of ant 1, to `A` and to `E`, because
the ant admitted in a turn is advanced in the same turn. -/
theorem moveAnts_two_moves_in_one_turn (n : Nat) :
    moveAnts (n + 2) [["S", "A", "E"]] 1 = Run.done [[(1, "A"), (1, "E")]] := by
  have h0 : assignAnts [["S", "A", "E"]] 1 = some [0, 0] := by decide
  have h1 : turn [["S", "A", "E"]] [0, 0] 1 initSched =
      some ({ antStates := [(1, { pathIdx := 0, position := 2, finished := true })]
              activeAnts := 0, startedAnts := 1, finishedAnts := 1 },
            [(1, "A"), (1, "E")]) := by decide
  have h2 : initSched.finishedAnts < 1 := by decide
  simp only [moveAnts, h0, turnLoop, h1, h2, if_true]
  simp

/-! ## Scenarios of the specification and further inputs -/

theorem firstRoomTaken_filter (antStates : List (Nat × antState)) (pathIdx : Nat) :
    firstRoomTaken antStates pathIdx =
      firstRoomTaken (antStates.filter (fun e => e.2.pathIdx = pathIdx)) pathIdx := by
  unfold firstRoomTaken
  rw [List.any_filter]
  congr 1
  funext a
  by_cases h : a.2.pathIdx = pathIdx <;> simp [h]

theorem nextPosTaken_filter (antStates : List (Nat × antState)) (ant pathIdx nextPos : Nat) :
    nextPosTaken antStates ant pathIdx nextPos =
      nextPosTaken (antStates.filter (fun e => e.2.pathIdx = pathIdx)) ant pathIdx nextPos := by
  unfold nextPosTaken
  rw [List.any_filter]
  congr 1
  funext a
  by_cases h : a.2.pathIdx = pathIdx <;> simp [h]

/-- C11, evaluated at the single route `[S, E]` and one ant: after the first
turn ant 1 is at position 1, the last index of its route, reached by
admission, and it is not marked finished; `finishedAnts` is still 0. -/
theorem schedAfter_direct_route_not_finished :
    schedAfter [["S", "E"]] 1 1 =
        some { antStates := [(1, { pathIdx := 0, position := 1, finished := false })]
               activeAnts := 1, startedAnts := 1, finishedAnts := 0 } ∧
      ["S", "E"].length - 1 = 1 := by
  decide

/-- C12, evaluated at an input without any link (start `S`, end `E`, one
ant): extraction returns no route, `moveAnts` is entered all the same with
the empty route list and panics on `pathLengths[0]`. -/
theorem mainCore_no_route_panics :
    (∀ fuel, extractLoop "S" "E" (fuel + 1) [] [] = some ([], [])) ∧
      (∀ fuel, moveAnts fuel [] 1 = Run.panic) ∧
      ∀ fuel, mainCore (fuel + 1) 1 [] "S" "E" = Run.panic := by
  have h1 : findPath [] "S" "E" = some (false, []) := by decide
  have h2 : assignAnts [] 1 = none := by decide
  refine ⟨?_, ?_, ?_⟩
  · intro fuel
    simp only [extractLoop, h1]
  · intro fuel
    simp only [moveAnts, h2]
  · intro fuel
    simp only [mainCore, extractLoop, h1, moveAnts, h2]

/-- C13, evaluated at the single route `[S, A, E]` (2 hops) and 3 ants: three
batches are printed, one per ant, not `2 + 3 - 1 = 4`; every ant makes both
of its moves in the turn of its admission. -/
theorem moveAnts_single_route_three_ants (n : Nat) :
    moveAnts (n + 4) [["S", "A", "E"]] 3 =
      Run.done [[(1, "A"), (1, "E")], [(2, "A"), (2, "E")], [(3, "A"), (3, "E")]] := by
  have h0 : assignAnts [["S", "A", "E"]] 3 = some [0, 0, 0, 0] := by decide
  have h1 : turn [["S", "A", "E"]] [0, 0, 0, 0] 3 initSched =
      some ({ antStates := [(1, { pathIdx := 0, position := 2, finished := true })]
              activeAnts := 0, startedAnts := 1, finishedAnts := 1 },
            [(1, "A"), (1, "E")]) := by decide
  have h2 : turn [["S", "A", "E"]] [0, 0, 0, 0] 3
      { antStates := [(1, { pathIdx := 0, position := 2, finished := true })]
        activeAnts := 0, startedAnts := 1, finishedAnts := 1 } =
      some ({ antStates := [(1, { pathIdx := 0, position := 2, finished := true }),
                (2, { pathIdx := 0, position := 2, finished := true })]
              activeAnts := 0, startedAnts := 2, finishedAnts := 2 },
            [(2, "A"), (2, "E")]) := by decide
  have h3 : turn [["S", "A", "E"]] [0, 0, 0, 0] 3
      { antStates := [(1, { pathIdx := 0, position := 2, finished := true }),
          (2, { pathIdx := 0, position := 2, finished := true })]
        activeAnts := 0, startedAnts := 2, finishedAnts := 2 } =
      some ({ antStates := [(1, { pathIdx := 0, position := 2, finished := true }),
                (2, { pathIdx := 0, position := 2, finished := true }),
                (3, { pathIdx := 0, position := 2, finished := true })]
              activeAnts := 0, startedAnts := 3, finishedAnts := 3 },
            [(3, "A"), (3, "E")]) := by decide
  have g0 : initSched.finishedAnts < 3 := by decide
  simp [moveAnts, h0, turnLoop, h1, h2, h3, g0]

/-- C14, evaluated at the second iteration of the loop of `main` on the link
`S-E` listed twice: the search returns `[S, E]` through the second copy, the
only link of positive capacity, and `updateCapacities` leaves that copy at
capacity 1: the number of available links does not drop. -/
theorem updateCapacities_leaves_used_link :
    findPath duplicateLinkStuck "S" "E" = some (true, ["S", "E"]) ∧
      (updateCapacities duplicateLinkStuck ["S", "E"])[1]? = some (mkLink "S" "E") ∧
      ((updateCapacities duplicateLinkStuck ["S", "E"]).filter
        (fun l => 0 < l.capacity)).length =
        (duplicateLinkStuck.filter (fun l => 0 < l.capacity)).length := by
  decide

/-- Scenario B: on the links `S-A, S-B, A-E, B-E` in this order the loop of
`main` returns exactly `[S,A,E]` then `[S,B,E]`; with the first two links
swapped the two routes come out in the other order. -/
theorem extractLoop_scenarioB (n : Nat) :
    (extractLoop "S" "E" (n + 3) scenarioB []).map (fun r => r.1) =
        some [["S", "A", "E"], ["S", "B", "E"]] ∧
      (extractLoop "S" "E" (n + 3)
          [mkLink "S" "B", mkLink "S" "A", mkLink "A" "E", mkLink "B" "E"] []).map
          (fun r => r.1) =
        some [["S", "B", "E"], ["S", "A", "E"]] := by
  have a1 : findPath scenarioB "S" "E" = some (true, ["S", "A", "E"]) := by decide
  have a2 : findPath (updateCapacities scenarioB ["S", "A", "E"]) "S" "E" =
      some (true, ["S", "B", "E"]) := by decide
  have a3 : findPath (updateCapacities (updateCapacities scenarioB ["S", "A", "E"])
      ["S", "B", "E"]) "S" "E" = some (false, []) := by decide
  have b1 : findPath [mkLink "S" "B", mkLink "S" "A", mkLink "A" "E", mkLink "B" "E"]
      "S" "E" = some (true, ["S", "B", "E"]) := by decide
  have b2 : findPath (updateCapacities
      [mkLink "S" "B", mkLink "S" "A", mkLink "A" "E", mkLink "B" "E"] ["S", "B", "E"])
      "S" "E" = some (true, ["S", "A", "E"]) := by decide
  have b3 : findPath (updateCapacities (updateCapacities
      [mkLink "S" "B", mkLink "S" "A", mkLink "A" "E", mkLink "B" "E"] ["S", "B", "E"])
      ["S", "A", "E"]) "S" "E" = some (false, []) := by decide
  constructor
  · simp only [extractLoop, a1, a2, a3, List.nil_append, List.cons_append, Option.map_some']
  · simp only [extractLoop, b1, b2, b3, List.nil_append, List.cons_append, Option.map_some']

/-- C16 (cross-route collisions are not prevented): on `crossingLinks` the
loop of `main` returns two routes without a common link that both pass
through room `X`; with two ants, after the second turn ant 1 (route 1) and
ant 2 (route 0) are both unfinished and both in `X`.  The two occupancy
checks only look at the ants of the same route. -/
theorem cross_route_collision :
    (∃ (links : List Link) (start end_ x : String) (antCount t : Nat)
        (r0 r1 : List String) (cleared : List Link) (s : Sched) (a b : Nat)
        (sa sb : antState),
        extractLoop start end_ (links.length + 1) links [] = some ([r0, r1], cleared) ∧
        (∀ e ∈ r0.zip r0.tail, ∀ f ∈ r1.zip r1.tail, e ≠ f ∧ e ≠ (f.2, f.1)) ∧
        schedAfter [r0, r1] antCount t = some s ∧
        (a, sa) ∈ s.antStates ∧ (b, sb) ∈ s.antStates ∧ a ≠ b ∧
        sa.finished = false ∧ sb.finished = false ∧
        sa.pathIdx = 1 ∧ sb.pathIdx = 0 ∧
        r1[sa.position]? = some x ∧ r0[sb.position]? = some x ∧
        x ≠ start ∧ x ≠ end_) ∧
      (∀ antStates pathIdx, firstRoomTaken antStates pathIdx =
        firstRoomTaken (antStates.filter (fun e => e.2.pathIdx = pathIdx)) pathIdx) ∧
      ∀ antStates ant pathIdx nextPos, nextPosTaken antStates ant pathIdx nextPos =
        nextPosTaken (antStates.filter (fun e => e.2.pathIdx = pathIdx)) ant pathIdx nextPos := by
  refine ⟨?_, firstRoomTaken_filter, nextPosTaken_filter⟩
  refine ⟨crossingLinks, "S", "E", "X", 2, 2, ["S", "A", "X", "E"],
    ["S", "C", "D", "X", "F", "E"],
    [{ from_ := "S", to_ := "A", capacity := 0 }, { from_ := "A", to_ := "X", capacity := 0 },
      { from_ := "X", to_ := "E", capacity := 0 }, { from_ := "S", to_ := "C", capacity := 0 },
      { from_ := "C", to_ := "D", capacity := 0 }, { from_ := "D", to_ := "X", capacity := 0 },
      { from_ := "X", to_ := "F", capacity := 0 }, { from_ := "F", to_ := "E", capacity := 0 }],
    { antStates := [(1, { pathIdx := 1, position := 3, finished := false }),
        (2, { pathIdx := 0, position := 2, finished := false })]
      activeAnts := 2, startedAnts := 2, finishedAnts := 0 },
    1, 2, { pathIdx := 1, position := 3, finished := false },
    { pathIdx := 0, position := 2, finished := false }, ?_, ?_, ?_, ?_, ?_, ?_, ?_, ?_, ?_,
    ?_, ?_, ?_, ?_, ?_⟩
  · decide
  · decide
  · decide
  · simp
  · simp
  · decide
  · rfl
  · rfl
  · rfl
  · rfl
  · rfl
  · rfl
  · decide
  · decide

/-! ## Index safety of the scheduler -/

theorem mem_of_lookup {antStates : List (Nat × antState)} {ant : Nat} {state : antState}
    (h : antStates.lookup ant = some state) : (ant, state) ∈ antStates := by
  induction antStates with
  | nil => simp [List.lookup] at h
  | cons e rest ih =>
    obtain ⟨k, v⟩ := e
    by_cases hk : ant = k
    · subst hk
      simp [List.lookup] at h
      simp [h]
    · have hb : (ant == k) = false := by simpa using hk
      simp only [List.lookup, hb] at h
      exact List.mem_cons_of_mem _ (ih h)

theorem bestPathLoop_safe (lengths : List Int) (antAssignments : List Nat) :
    ∀ (idxs : List Nat) (best : Nat × Int), (∀ i ∈ idxs, i < lengths.length) →
      best.1 < lengths.length →
      ∃ r, bestPathLoop lengths antAssignments idxs best = some r ∧ r.1 < lengths.length := by
  intro idxs
  induction idxs with
  | nil =>
    intro best _ hb
    exact ⟨best, rfl, hb⟩
  | cons i rest ih =>
    intro best hi hb
    have hlt : i < lengths.length := hi i (List.mem_cons_self _ _)
    have hrest : ∀ j ∈ rest, j < lengths.length := fun j hj => hi j (List.mem_cons_of_mem _ hj)
    unfold bestPathLoop
    rw [List.getElem?_eq_getElem hlt]
    simp only
    split
    · exact ih _ hrest hlt
    · exact ih _ hrest hb

theorem assignAnt_safe {paths : List (List String)} (hne : paths ≠ [])
    (antAssignments : List Nat) (ant : Nat) (h : ∀ x ∈ antAssignments, x < paths.length) :
    ∃ a, assignAnt paths antAssignments ant = some a ∧ a.length = antAssignments.length ∧
      ∀ x ∈ a, x < paths.length := by
  have hpos : 0 < paths.length := List.length_pos.2 hne
  have hl : (pathLengths paths).length = paths.length := by simp [pathLengths]
  unfold assignAnt
  rw [List.getElem?_eq_getElem (by omega : 0 < (pathLengths paths).length)]
  simp only
  obtain ⟨r, hr, hr1⟩ := bestPathLoop_safe (pathLengths paths) antAssignments
    (List.range' 1 (paths.length - 1))
    (0, wrapInt ((pathLengths paths)[0] + countAntsInPath antAssignments 0))
    (by intro i hi; rw [List.mem_range'_1] at hi; omega) (by simp only; omega)
  rw [hr]
  refine ⟨_, rfl, by simp, ?_⟩
  intro x hx
  rcases List.mem_or_eq_of_mem_set hx with hx | hx
  · exact h x hx
  · omega

theorem assignLoop_safe {paths : List (List String)} (hne : paths ≠ []) :
    ∀ (ants antAssignments : List Nat), (∀ x ∈ antAssignments, x < paths.length) →
      ∃ a, assignLoop paths ants antAssignments = some a ∧
        a.length = antAssignments.length ∧ ∀ x ∈ a, x < paths.length := by
  intro ants
  induction ants with
  | nil =>
    intro antAssignments h
    exact ⟨antAssignments, rfl, rfl, h⟩
  | cons ant rest ih =>
    intro antAssignments h
    obtain ⟨a, ha, hlen, hx⟩ := assignAnt_safe hne antAssignments ant h
    obtain ⟨b, hb, hlen', hx'⟩ := ih a hx
    refine ⟨b, ?_, by omega, hx'⟩
    simp only [assignLoop, ha, hb]

theorem makeAssignments_of_lt {antCount : Nat} (hlt : antCount < maxInt) :
    makeAssignments antCount = some (List.replicate (antCount + 1) 0) := by
  rw [makeAssignments, if_neg (Nat.not_le.2 hlt)]

theorem makeAssignments_of_le {antCount : Nat} (hle : maxInt ≤ antCount) :
    makeAssignments antCount = none := by
  rw [makeAssignments, if_pos hle]

theorem assignAnts_of_le (paths : List (List String)) {antCount : Nat}
    (hle : maxInt ≤ antCount) : assignAnts paths antCount = none := by
  rw [assignAnts, makeAssignments_of_le hle]

theorem assignAnts_safe {paths : List (List String)} (hne : paths ≠ []) {antCount : Nat}
    (hlt : antCount < maxInt) :
    ∃ a, assignAnts paths antCount = some a ∧ a.length = antCount + 1 ∧
      ∀ x ∈ a, x < paths.length := by
  have hpos : 0 < paths.length := List.length_pos.2 hne
  obtain ⟨a, ha, hlen, hx⟩ := assignLoop_safe hne (List.range' 1 antCount)
    (List.replicate (antCount + 1) 0)
    (by intro x hx; rw [List.eq_of_mem_replicate hx]; exact hpos)
  refine ⟨a, ?_, by simpa using hlen, hx⟩
  rw [assignAnts, makeAssignments_of_lt hlt]
  exact ha

theorem startNewAnt_safe {paths : List (List String)} {antAssignments : List Nat}
    {antCount : Nat} (hlen : ∀ p ∈ paths, 2 ≤ p.length)
    (hasg : antAssignments.length = antCount + 1)
    (hidx : ∀ x ∈ antAssignments, x < paths.length) {s : Sched}
    (hs : SafeSched paths antCount s) :
    ∃ r, startNewAnt paths antAssignments antCount s = some r ∧
      SafeSched paths antCount r.1 := by
  unfold startNewAnt
  by_cases hlt : s.startedAnts < antCount
  · rw [if_pos hlt]
    have h1 : s.startedAnts + 1 < antAssignments.length := by omega
    rw [List.getElem?_eq_getElem h1]
    simp only
    have hp : antAssignments[s.startedAnts + 1] < paths.length :=
      hidx _ (List.getElem_mem _)
    split
    · exact ⟨_, rfl, hs⟩
    · rw [List.getElem?_eq_getElem hp]
      simp only
      have h2 : 2 ≤ (paths[antAssignments[s.startedAnts + 1]]).length :=
        hlen _ (List.getElem_mem _)
      rw [List.getElem?_eq_getElem (by omega : 1 < (paths[antAssignments[s.startedAnts + 1]]).length)]
      refine ⟨_, rfl, by simp only; omega, ?_⟩
      intro e he
      rcases mem_setState he with he | ⟨he, _⟩
      · subst he
        exact ⟨_, List.getElem?_eq_getElem hp, by simp only; omega⟩
      · exact hs.2 e he
  · rw [if_neg hlt]
    exact ⟨_, rfl, hs⟩

theorem advanceAnt_safe {paths : List (List String)} {antCount : Nat} (ant : Nat) {s : Sched}
    (moves : List Move) (hs : SafeSched paths antCount s) :
    ∃ r, advanceAnt paths ant s moves = some r ∧ SafeSched paths antCount r.1 ∧
      r.1.startedAnts = s.startedAnts := by
  unfold advanceAnt
  cases hl : s.antStates.lookup ant with
  | none => exact ⟨_, rfl, hs, rfl⟩
  | some state =>
    simp only
    obtain ⟨p, hp, hpos⟩ := hs.2 _ (mem_of_lookup hl)
    simp only at hp hpos
    split
    · exact ⟨_, rfl, hs, rfl⟩
    · rw [hp]
      simp only
      split
      · rename_i hlt
        split
        · exact ⟨_, rfl, hs, rfl⟩
        · rw [List.getElem?_eq_getElem (by omega : state.position + 1 < p.length)]
          simp only
          split
          · refine ⟨_, rfl, ⟨hs.1, ?_⟩, rfl⟩
            intro e he
            rcases mem_setState he with he | ⟨he, _⟩
            · subst he
              exact ⟨p, hp, by simp only; omega⟩
            · exact hs.2 e he
          · refine ⟨_, rfl, ⟨hs.1, ?_⟩, rfl⟩
            intro e he
            rcases mem_setState he with he | ⟨he, _⟩
            · subst he
              exact ⟨p, hp, by simp only; omega⟩
            · exact hs.2 e he
      · exact ⟨_, rfl, hs, rfl⟩

theorem advanceLoop_safe {paths : List (List String)} {antCount : Nat} :
    ∀ (ants : List Nat) (s : Sched) (moves : List Move), SafeSched paths antCount s →
      ∃ r, advanceLoop paths ants s moves = some r ∧ SafeSched paths antCount r.1 := by
  intro ants
  induction ants with
  | nil =>
    intro s moves hs
    exact ⟨_, rfl, hs⟩
  | cons ant rest ih =>
    intro s moves hs
    obtain ⟨r, hr, hs', _⟩ := advanceAnt_safe ant moves hs
    obtain ⟨r', hr', hs''⟩ := ih r.1 r.2 hs'
    exact ⟨r', by simp only [advanceLoop, hr, hr'], hs''⟩

theorem turn_safe {paths : List (List String)} {antAssignments : List Nat}
    {antCount : Nat} (hlen : ∀ p ∈ paths, 2 ≤ p.length)
    (hasg : antAssignments.length = antCount + 1)
    (hidx : ∀ x ∈ antAssignments, x < paths.length) {s : Sched}
    (hs : SafeSched paths antCount s) :
    ∃ r, turn paths antAssignments antCount s = some r ∧ SafeSched paths antCount r.1 := by
  obtain ⟨r, hr, hs'⟩ := startNewAnt_safe hlen hasg hidx hs
  obtain ⟨r', hr', hs''⟩ := advanceLoop_safe (List.range' 1 r.1.startedAnts) r.1 r.2 hs'
  exact ⟨r', by simp only [turn, hr, hr'], hs''⟩

theorem turnLoop_no_panic {paths : List (List String)} {antAssignments : List Nat}
    {antCount : Nat} (hlen : ∀ p ∈ paths, 2 ≤ p.length)
    (hasg : antAssignments.length = antCount + 1)
    (hidx : ∀ x ∈ antAssignments, x < paths.length) :
    ∀ (fuel : Nat) (s : Sched) (out : List (List Move)), SafeSched paths antCount s →
      turnLoop paths antAssignments antCount fuel s out ≠ Run.panic := by
  intro fuel
  induction fuel with
  | zero =>
    intro s out _ h
    simp [turnLoop] at h
  | succ fuel ih =>
    intro s out hs
    unfold turnLoop
    split
    · obtain ⟨r, hr, hs'⟩ := turn_safe hlen hasg hidx hs
      rw [hr]
      exact ih _ _ hs'
    · intro h
      cases h

theorem afterTurns_safe {paths : List (List String)} {antAssignments : List Nat}
    {antCount : Nat} (hlen : ∀ p ∈ paths, 2 ≤ p.length)
    (hasg : antAssignments.length = antCount + 1)
    (hidx : ∀ x ∈ antAssignments, x < paths.length) :
    ∀ (n : Nat) (s s' : Sched), SafeSched paths antCount s →
      afterTurns paths antAssignments antCount n s = some s' →
      SafeSched paths antCount s' := by
  intro n
  induction n with
  | zero =>
    intro s s' hs h
    simp [afterTurns] at h
    subst h
    exact hs
  | succ n ih =>
    intro s s' hs h
    unfold afterTurns at h
    split at h
    · obtain ⟨r, hr, hs'⟩ := turn_safe hlen hasg hidx hs
      rw [hr] at h
      exact ih _ _ hs' h
    · cases h

theorem initSched_safe (paths : List (List String)) (antCount : Nat) :
    SafeSched paths antCount initSched := by
  refine ⟨Nat.zero_le _, ?_⟩
  intro e he
  simp [initSched] at he

/-- C20 (index safety of the scheduler): for a non-empty route list whose
routes all have at least 2 rooms and any ant count, the assignment loop
ends with route indices below `len(paths)`, no index used by `moveAnts` is
out of range (the only panic of a run is that of `make([]int, antCount+1)`
for `antCount = 2^63 - 1`, which precedes every index), `startedAnts` never
exceeds `antCount`, and every started ant is at a position inside its
route. -/
theorem moveAnts_index_safe (paths : List (List String)) (antCount : Nat)
    (hne : paths ≠ []) (hlen : ∀ p ∈ paths, 2 ≤ p.length) : IndexSafe paths antCount := by
  by_cases hlt : antCount < maxInt
  · obtain ⟨a, ha, hl, hx⟩ := assignAnts_safe hne hlt
    refine ⟨fun _ => ⟨a, ha, hl, hx⟩, ?_, ?_⟩
    · intro fuel h
      rw [moveAnts, ha] at h
      exact absurd h (turnLoop_no_panic hlen hl hx fuel _ _ (initSched_safe paths antCount))
    · intro n s h
      rw [schedAfter, ha] at h
      exact afterTurns_safe hlen hl hx n _ _ (initSched_safe paths antCount) h
  · have hle : maxInt ≤ antCount := Nat.not_lt.1 hlt
    refine ⟨fun h => absurd h hlt, fun _ _ => makeAssignments_of_le hle, ?_⟩
    intro n s h
    rw [schedAfter, assignAnts_of_le paths hle] at h
    cases h

theorem moveAnts_index_safe_witness :
    [["S", "A", "E"], ["S", "E"]] ≠ [] ∧
      (∀ p ∈ [["S", "A", "E"], ["S", "E"]], 2 ≤ p.length) ∧
      IndexSafe [["S", "A", "E"], ["S", "E"]] 3 :=
  ⟨by decide, by decide,
    moveAnts_index_safe [["S", "A", "E"], ["S", "E"]] 3 (by decide) (by decide)⟩

/-! ## Determinism -/

theorem any_perm {α : Type} (f : α → Bool) {l₁ l₂ : List α} (h : l₁.Perm l₂) :
    l₁.any f = l₂.any f := by
  induction h with
  | nil => rfl
  | cons x _ ih => simp [ih]
  | swap x y l =>
    simp only [List.any_cons]
    cases f x <;> cases f y <;> rfl
  | trans _ _ ih₁ ih₂ => exact ih₁.trans ih₂

theorem extractLoop_fuel_succ (start end_ : String) :
    ∀ (fuel : Nat) (links : List Link) (paths : List (List String))
      (r : List (List String) × List Link),
      extractLoop start end_ fuel links paths = some r →
      extractLoop start end_ (fuel + 1) links paths = some r := by
  intro fuel
  induction fuel with
  | zero =>
    intro links paths r h
    simp [extractLoop] at h
  | succ fuel ih =>
    intro links paths r h
    rw [extractLoop] at h
    rw [extractLoop]
    split at h
    · cases h
    · exact h
    · exact ih _ _ _ h

theorem extractLoop_fuel_le (start end_ : String) (links : List Link)
    (paths : List (List String)) (r : List (List String) × List Link) :
    ∀ (f1 f2 : Nat), f1 ≤ f2 → extractLoop start end_ f1 links paths = some r →
      extractLoop start end_ f2 links paths = some r := by
  intro f1 f2 hle h
  induction hle with
  | refl => exact h
  | step _ ih => exact extractLoop_fuel_succ _ _ _ _ _ _ ih

theorem turnLoop_fuel_succ (paths : List (List String)) (antAssignments : List Nat)
    (antCount : Nat) :
    ∀ (fuel : Nat) (s : Sched) (out b : List (List Move)),
      turnLoop paths antAssignments antCount fuel s out = Run.done b →
      turnLoop paths antAssignments antCount (fuel + 1) s out = Run.done b := by
  intro fuel
  induction fuel with
  | zero =>
    intro s out b h
    simp [turnLoop] at h
  | succ fuel ih =>
    intro s out b h
    rw [turnLoop] at h
    rw [turnLoop]
    split at h
    · rename_i hlt
      rw [if_pos hlt]
      split at h
      · cases h
      · exact ih _ _ _ h
    · rename_i hlt
      rw [if_neg hlt]
      exact h

theorem turnLoop_fuel_le (paths : List (List String)) (antAssignments : List Nat)
    (antCount : Nat) (s : Sched) (out b : List (List Move)) :
    ∀ (f1 f2 : Nat), f1 ≤ f2 →
      turnLoop paths antAssignments antCount f1 s out = Run.done b →
      turnLoop paths antAssignments antCount f2 s out = Run.done b := by
  intro f1 f2 hle h
  induction hle with
  | refl => exact h
  | step _ ih => exact turnLoop_fuel_succ _ _ _ _ _ _ _ ih

theorem moveAnts_fuel_le (paths : List (List String)) (antCount : Nat)
    (b : List (List Move)) (f1 f2 : Nat) (hle : f1 ≤ f2)
    (h : moveAnts f1 paths antCount = Run.done b) :
    moveAnts f2 paths antCount = Run.done b := by
  cases hasg : assignAnts paths antCount with
  | none =>
    rw [moveAnts, hasg] at h
    exact absurd h (by simp)
  | some antAssignments =>
    rw [moveAnts, hasg] at h ⊢
    exact turnLoop_fuel_le _ _ _ _ _ _ f1 f2 hle h

/-- C17 (determinism): the routes returned by the loop of `main` depend on
the ordered links, start and end only, and the batches printed by `moveAnts`
on the routes and the ant count only (neither depends on the fuel of the
model); the two loops over the `antStates` map compute the same `canStartNew`
and `canMove` for every order in which the entries are iterated. -/
theorem extraction_and_schedule_deterministic :
    (∀ (links : List Link) (start end_ : String) (f1 f2 : Nat)
        (r1 r2 : List (List String) × List Link),
        extractLoop start end_ f1 links [] = some r1 →
        extractLoop start end_ f2 links [] = some r2 → r1 = r2) ∧
      (∀ (paths : List (List String)) (antCount f1 f2 : Nat) (b1 b2 : List (List Move)),
        moveAnts f1 paths antCount = Run.done b1 →
        moveAnts f2 paths antCount = Run.done b2 → b1 = b2) ∧
      (∀ (antStates order : List (Nat × antState)) (pathIdx : Nat),
        order.Perm antStates →
        firstRoomTaken order pathIdx = firstRoomTaken antStates pathIdx) ∧
      ∀ (antStates order : List (Nat × antState)) (ant pathIdx nextPos : Nat),
        order.Perm antStates →
        nextPosTaken order ant pathIdx nextPos =
          nextPosTaken antStates ant pathIdx nextPos := by
  refine ⟨?_, ?_, ?_, ?_⟩
  · intro links start end_ f1 f2 r1 r2 h1 h2
    have e1 := extractLoop_fuel_le start end_ links [] r1 f1 (max f1 f2) (le_max_left _ _) h1
    have e2 := extractLoop_fuel_le start end_ links [] r2 f2 (max f1 f2) (le_max_right _ _) h2
    rw [e1] at e2
    exact Option.some.inj e2
  · intro paths antCount f1 f2 b1 b2 h1 h2
    have e1 := moveAnts_fuel_le paths antCount b1 f1 (max f1 f2) (le_max_left _ _) h1
    have e2 := moveAnts_fuel_le paths antCount b2 f2 (max f1 f2) (le_max_right _ _) h2
    rw [e1] at e2
    exact Run.done.inj e2
  · intro antStates order pathIdx h
    exact any_perm _ h
  · intro antStates order ant pathIdx nextPos h
    exact any_perm _ h

/-! ## Extraction on link lists without parallel links -/

theorem not_nodup_split {α : Type} [DecidableEq α] :
    ∀ (l : List α), ¬ l.Nodup → ∃ x l1 l2 l3, l = l1 ++ x :: (l2 ++ x :: l3) := by
  intro l
  induction l with
  | nil => intro h; exact absurd List.nodup_nil h
  | cons a t ih =>
    intro h
    by_cases ha : a ∈ t
    · obtain ⟨l2, l3, rfl⟩ := List.append_of_mem ha
      exact ⟨a, [], l2, l3, rfl⟩
    · have ht : ¬ t.Nodup := fun hn => h (List.nodup_cons.2 ⟨ha, hn⟩)
      obtain ⟨x, l1, l2, l3, rfl⟩ := ih ht
      exact ⟨x, a :: l1, l2, l3, rfl⟩

theorem IsWalk.shortcut {links : List Link} {start end_ x : String} {l1 l2 l3 : List String}
    (h : IsWalk links start end_ (l1 ++ x :: (l2 ++ x :: l3))) :
    IsWalk links start end_ (l1 ++ x :: l3) := by
  obtain ⟨h1, h2, h3⟩ := h
  refine ⟨?_, ?_, ?_⟩
  · cases l1 with
    | nil => simpa using h1
    | cons a t => simpa using h1
  · rw [List.getLast?_append_cons] at h2 ⊢
    have h2' : ((x :: l2) ++ x :: l3).getLast? = some end_ := h2
    rw [List.getLast?_append_cons] at h2'
    exact h2'
  · rw [List.chain'_split] at h3 ⊢
    obtain ⟨c1, c2⟩ := h3
    have c2' : List.Chain' (Adj links) ((x :: l2) ++ x :: l3) := c2
    rw [List.chain'_split] at c2'
    exact ⟨c1, c2'.2⟩

theorem findPath_nodup {links : List Link} {start end_ : String} {path : List String}
    (h : findPath links start end_ = some (true, path)) : path.Nodup := by
  rcases findPath_spec links start end_ with ⟨p, hp, hw, hmin⟩ | ⟨hf, _⟩
  · rw [hp] at h
    simp at h
    subst h
    by_contra hn
    obtain ⟨x, l1, l2, l3, rfl⟩ := not_nodup_split p hn
    have := hmin _ hw.shortcut
    simp at this
    omega
  · rw [hf] at h
    simp at h

theorem mem_clearLink {a b : String} {m : Link} :
    ∀ {links : List Link}, m ∈ clearLink a b links →
      ∃ m' ∈ links, m.from_ = m'.from_ ∧ m.to_ = m'.to_ := by
  intro links
  induction links with
  | nil => intro h; simp [clearLink] at h
  | cons l ls ih =>
    intro h
    unfold clearLink at h
    split at h
    · rcases List.mem_cons.1 h with h | h
      · exact ⟨l, List.mem_cons_self _ _, by simp [h], by simp [h]⟩
      · exact ⟨m, List.mem_cons_of_mem _ h, rfl, rfl⟩
    · rcases List.mem_cons.1 h with h | h
      · exact ⟨l, List.mem_cons_self _ _, by simp [h], by simp [h]⟩
      · obtain ⟨m', hm', e1, e2⟩ := ih h
        exact ⟨m', List.mem_cons_of_mem _ hm', e1, e2⟩

theorem simple_clearLink {links : List Link} (a b : String) (hs : Simple links) :
    Simple (clearLink a b links) := by
  unfold Simple at hs ⊢
  induction links with
  | nil => simp [Lemin.clearLink]
  | cons l ls ih =>
    obtain ⟨h1, h2⟩ := List.pairwise_cons.1 hs
    unfold Lemin.clearLink
    split
    · exact List.pairwise_cons.2 ⟨fun m hm => h1 m hm, h2⟩
    · refine List.pairwise_cons.2 ⟨?_, ih h2⟩
      intro m hm
      obtain ⟨m', hm', e1, e2⟩ := mem_clearLink hm
      rw [e1, e2]
      exact h1 m' hm'

theorem openDegree_clearLink_le (a b s : String) :
    ∀ (links : List Link), openDegree (clearLink a b links) s ≤ openDegree links s := by
  intro links
  induction links with
  | nil => simp [clearLink]
  | cons l ls ih =>
    unfold clearLink
    split
    · simp only [openDegree, List.countP_cons]
      simp
    · simp only [openDegree, List.countP_cons] at ih ⊢
      omega

theorem openDegree_clearLink_lt {a b s : String} (hs : s = a ∨ s = b) :
    ∀ {links : List Link}, Simple links → Adj links a b →
      openDegree (clearLink a b links) s + 1 ≤ openDegree links s := by
  intro links
  induction links with
  | nil =>
    rintro _ ⟨l, hl, _⟩
    cases hl
  | cons l ls ih =>
    intro hsim hadj
    obtain ⟨h1, h2⟩ := List.pairwise_cons.1 hsim
    obtain ⟨l0, hl0, hcap, hj⟩ := hadj
    unfold clearLink
    by_cases hc : (l.from_ = a ∧ l.to_ = b) ∨ (l.from_ = b ∧ l.to_ = a)
    · rw [if_pos hc]
      have hpos : 0 < l.capacity := by
        rcases List.mem_cons.1 hl0 with e | e
        · rw [← e]; exact hcap
        · exfalso
          apply h1 l0 e
          rcases hc with ⟨c1, c2⟩ | ⟨c1, c2⟩ <;> rcases hj with ⟨j1, j2⟩ | ⟨j1, j2⟩
          · exact Or.inl ⟨c1.trans j1.symm, c2.trans j2.symm⟩
          · exact Or.inr ⟨c1.trans j1.symm, c2.trans j2.symm⟩
          · exact Or.inr ⟨c1.trans j2.symm, c2.trans j1.symm⟩
          · exact Or.inl ⟨c1.trans j2.symm, c2.trans j1.symm⟩
      have hend : l.from_ = s ∨ l.to_ = s := by
        rcases hc with ⟨c1, c2⟩ | ⟨c1, c2⟩ <;> rcases hs with e | e
        · exact Or.inl (c1.trans e.symm)
        · exact Or.inr (c2.trans e.symm)
        · exact Or.inr (c2.trans e.symm)
        · exact Or.inl (c1.trans e.symm)
      simp only [openDegree, List.countP_cons]
      simp [hpos, hend]
    · rw [if_neg hc]
      have hne : l0 ≠ l := by
        intro e
        apply hc
        rw [← e]
        rcases hj with ⟨j1, j2⟩ | ⟨j1, j2⟩
        · exact Or.inl ⟨j1, j2⟩
        · exact Or.inr ⟨j2, j1⟩
      have hmem : l0 ∈ ls := by
        rcases List.mem_cons.1 hl0 with e | e
        · exact absurd e hne
        · exact e
      have := ih h2 ⟨l0, hmem, hcap, hj⟩
      simp only [openDegree, List.countP_cons] at this ⊢
      omega

theorem openDegree_clearLink_eq {a b s : String} (ha : s ≠ a) (hb : s ≠ b) :
    ∀ (links : List Link), openDegree (clearLink a b links) s = openDegree links s := by
  intro links
  induction links with
  | nil => simp [clearLink]
  | cons l ls ih =>
    unfold clearLink
    by_cases hc : (l.from_ = a ∧ l.to_ = b) ∨ (l.from_ = b ∧ l.to_ = a)
    · rw [if_pos hc]
      have hend : ¬ (l.from_ = s ∨ l.to_ = s) := by
        rintro (e | e) <;> rcases hc with ⟨c1, c2⟩ | ⟨c1, c2⟩
        · exact ha (e.symm.trans c1)
        · exact hb (e.symm.trans c1)
        · exact hb (e.symm.trans c2)
        · exact ha (e.symm.trans c2)
      simp only [openDegree, List.countP_cons]
      simp [hend]
    · rw [if_neg hc]
      simp only [openDegree, List.countP_cons] at ih ⊢
      omega

theorem adj_clearLink {a b c d : String} (hc : a ≠ c) (hd : a ≠ d) :
    ∀ {links : List Link}, Adj links c d → Adj (clearLink a b links) c d := by
  intro links
  induction links with
  | nil =>
    rintro ⟨l, hl, _⟩
    cases hl
  | cons l ls ih =>
    rintro ⟨l0, hl0, hcap, hj⟩
    unfold Lemin.clearLink
    by_cases hm : (l.from_ = a ∧ l.to_ = b) ∨ (l.from_ = b ∧ l.to_ = a)
    · rw [if_pos hm]
      have hne : l0 ≠ l := by
        intro e
        rw [e] at hj
        rcases hm with ⟨c1, c2⟩ | ⟨c1, c2⟩ <;> rcases hj with ⟨j1, j2⟩ | ⟨j1, j2⟩
        · exact hc (c1.symm.trans j1)
        · exact hd (c1.symm.trans j2)
        · exact hd (c2.symm.trans j2)
        · exact hc (c2.symm.trans j1)
      have hmem : l0 ∈ ls := by
        rcases List.mem_cons.1 hl0 with e | e
        · exact absurd e hne
        · exact e
      exact ⟨l0, List.mem_cons_of_mem _ hmem, hcap, hj⟩
    · rw [if_neg hm]
      rcases List.mem_cons.1 hl0 with e | e
      · exact ⟨l0, by rw [e]; exact List.mem_cons_self _ _, hcap, hj⟩
      · obtain ⟨l1, hl1, hcap1, hj1⟩ := ih ⟨l0, e, hcap, hj⟩
        exact ⟨l1, List.mem_cons_of_mem _ hl1, hcap1, hj1⟩

theorem simple_updateCapacities :
    ∀ (path : List String) {links : List Link}, Simple links →
      Simple (updateCapacities links path) := by
  intro path
  induction path with
  | nil => intro links hs; simpa [Lemin.updateCapacities] using hs
  | cons a t ih =>
    intro links hs
    cases t with
    | nil => simpa [Lemin.updateCapacities] using hs
    | cons b rest =>
      rw [Lemin.updateCapacities]
      exact ih (simple_clearLink a b hs)

theorem openDegree_updateCapacities_le (s : String) :
    ∀ (path : List String) (links : List Link),
      openDegree (updateCapacities links path) s ≤ openDegree links s := by
  intro path
  induction path with
  | nil => intro links; simp [updateCapacities]
  | cons a t ih =>
    intro links
    cases t with
    | nil => simp [updateCapacities]
    | cons b rest =>
      rw [updateCapacities]
      exact (ih _).trans (openDegree_clearLink_le a b s links)

theorem openDegree_updateCapacities_head {links : List Link} {s x : String}
    {rest : List String} (hs : Simple links) (hadj : Adj links s x) :
    openDegree (updateCapacities links (s :: x :: rest)) s + 1 ≤ openDegree links s := by
  rw [updateCapacities]
  have h1 := openDegree_updateCapacities_le s (x :: rest) (clearLink s x links)
  have h2 := openDegree_clearLink_lt (Or.inl rfl) hs hadj
  omega

theorem openDegree_updateCapacities_last {e : String} :
    ∀ (path : List String) (a : String) {links : List Link}, Simple links →
      (a :: path).Nodup → List.Chain' (Adj links) (a :: path) → path ≠ [] →
      (a :: path).getLast? = some e →
      openDegree (updateCapacities links (a :: path)) e + 1 ≤ openDegree links e := by
  intro path
  induction path with
  | nil => intro a links _ _ _ h; exact absurd rfl h
  | cons b rest ih =>
    intro a links hs hnd hch _ hlast
    rw [List.chain'_cons] at hch
    obtain ⟨hab, hnd'⟩ := List.nodup_cons.1 hnd
    cases rest with
    | nil =>
      simp at hlast
      subst hlast
      simp only [updateCapacities]
      exact openDegree_clearLink_lt (Or.inr rfl) hs hch.1
    | cons c rest' =>
      rw [updateCapacities]
      have hlast' : (b :: c :: rest').getLast? = some e := by
        simpa [List.getLast?_cons_cons] using hlast
      have hmem : e ∈ b :: c :: rest' := List.mem_of_getLast?_eq_some hlast'
      have hea : e ≠ a := fun h => hab (h ▸ hmem)
      have heb : e ≠ b := by
        intro h
        have h2 : (c :: rest').getLast? = some e := by
          simpa [List.getLast?_cons_cons] using hlast'
        exact (List.nodup_cons.1 hnd').1 (h ▸ List.mem_of_getLast?_eq_some h2)
      have hch' : List.Chain' (Adj (clearLink a b links)) (b :: c :: rest') := by
        refine (List.Chain'.iff_mem.1 hch.2).imp ?_
        rintro u v ⟨hu, hv, huv⟩
        exact adj_clearLink (fun h => hab (by rw [h]; exact hu))
          (fun h => hab (by rw [h]; exact hv)) huv
      have := ih b (simple_clearLink a b hs) hnd' hch' (by simp) hlast'
      rw [openDegree_clearLink_eq hea heb] at this
      exact this

theorem openDegree_le_degree (links : List Link) (s : String) :
    openDegree links s ≤ degree links s := by
  unfold openDegree degree
  apply List.countP_mono_left
  intro l _ h
  simp at h ⊢
  exact h.2

theorem degree_le_length (links : List Link) (s : String) : degree links s ≤ links.length :=
  List.countP_le_length _

theorem extractLoop_simple {start end_ : String} (hne : start ≠ end_) :
    ∀ (k : Nat) (links : List Link) (paths0 : List (List String)), Simple links →
      openDegree links start ≤ k →
      ∃ paths cleared,
        (∀ fuel, k + 1 ≤ fuel →
          extractLoop start end_ fuel links paths0 = some (paths0 ++ paths, cleared)) ∧
        (∀ p ∈ paths, p.Nodup) ∧ paths.length ≤ openDegree links start ∧
        paths.length ≤ openDegree links end_ := by
  intro k
  induction k with
  | zero =>
    intro links paths0 hs hk
    rcases findPath_spec links start end_ with ⟨p, hp, hw, _⟩ | ⟨hf, _⟩
    · exfalso
      obtain ⟨h1, h2, h3⟩ := hw
      cases p with
      | nil => simp at h1
      | cons a t =>
        simp at h1
        subst h1
        cases t with
        | nil => simp at h2; exact hne h2
        | cons x rest =>
          have := @openDegree_updateCapacities_head _ _ _ rest hs (List.chain'_cons.1 h3).1
          omega
    · refine ⟨[], links, ?_, by simp, by simp, by simp⟩
      intro fuel hfuel
      obtain ⟨f, rfl⟩ : ∃ f, fuel = f + 1 := ⟨fuel - 1, by omega⟩
      simp [extractLoop, hf]
  | succ k ih =>
    intro links paths0 hs hk
    rcases findPath_spec links start end_ with ⟨p, hp, hw, _⟩ | ⟨hf, _⟩
    · have hnd := findPath_nodup hp
      obtain ⟨h1, h2, h3⟩ := hw
      cases p with
      | nil => simp at h1
      | cons a t =>
        simp at h1
        subst h1
        cases t with
        | nil => simp at h2; exact absurd h2 hne
        | cons x rest =>
          have hhead := @openDegree_updateCapacities_head _ _ _ rest hs
            (List.chain'_cons.1 h3).1
          have hlast := openDegree_updateCapacities_last (x :: rest) a hs hnd h3 (by simp) h2
          obtain ⟨paths, cleared, hrun, hnd', hl1, hl2⟩ :=
            ih (updateCapacities links (a :: x :: rest)) (paths0 ++ [a :: x :: rest])
              (simple_updateCapacities _ hs) (by omega)
          refine ⟨(a :: x :: rest) :: paths, cleared, ?_, ?_, ?_, ?_⟩
          · intro fuel hfuel
            obtain ⟨f, rfl⟩ : ∃ f, fuel = f + 1 := ⟨fuel - 1, by omega⟩
            rw [extractLoop, hp]
            simp only
            rw [hrun f (by omega)]
            simp
          · intro q hq
            rcases List.mem_cons.1 hq with e | e
            · rw [e]; exact hnd
            · exact hnd' q e
          · simp only [List.length_cons]; omega
          · simp only [List.length_cons]; omega
    · refine ⟨[], links, ?_, by simp, by simp, by simp⟩
      intro fuel hfuel
      obtain ⟨f, rfl⟩ : ∃ f, fuel = f + 1 := ⟨fuel - 1, by omega⟩
      simp [extractLoop, hf]

/-- C19 (bounded extraction on simple graphs): when no two links join the
same unordered pair of rooms and `start != end`, the loop of `main` stops
(within `len(links) + 1` iterations), every returned route visits no room
twice, and there are at most as many routes as links at `start` and as
links at `end`. -/
theorem extractLoop_simple_bounded (links : List Link) (start end_ : String)
    (hs : Simple links) (hne : start ≠ end_) :
    ∃ paths cleared,
      (∀ fuel, links.length + 1 ≤ fuel →
        extractLoop start end_ fuel links [] = some (paths, cleared)) ∧
      (∀ p ∈ paths, p.Nodup) ∧ paths.length ≤ degree links start ∧
      paths.length ≤ degree links end_ := by
  obtain ⟨paths, cleared, hrun, hnd, h1, h2⟩ :=
    extractLoop_simple hne (openDegree links start) links [] hs (Nat.le_refl _)
  have d1 := openDegree_le_degree links start
  have d2 := openDegree_le_degree links end_
  have d3 := degree_le_length links start
  refine ⟨paths, cleared, ?_, hnd, by omega, by omega⟩
  intro fuel hfuel
  have := hrun fuel (by omega)
  simpa using this

theorem extractLoop_simple_bounded_witness :
    Simple scenarioB ∧ "S" ≠ "E" ∧
      ∃ paths cleared,
        (∀ fuel, scenarioB.length + 1 ≤ fuel →
          extractLoop "S" "E" fuel scenarioB [] = some (paths, cleared)) ∧
        (∀ p ∈ paths, p.Nodup) ∧ paths.length ≤ degree scenarioB "S" ∧
        paths.length ≤ degree scenarioB "E" :=
  ⟨by simp [Simple, scenarioB, mkLink], by decide,
    extractLoop_simple_bounded scenarioB "S" "E" (by simp [Simple, scenarioB, mkLink])
      (by decide)⟩

/-! ## Capacities are never restored -/

theorem clearLink_lowered (a b : String) {links0 links : List Link}
    (h : List.Forall₂ Lowered links0 links) :
    List.Forall₂ Lowered links0 (clearLink a b links) := by
  induction h with
  | nil => simp [clearLink]
  | cons hxy _ ih =>
    unfold clearLink
    split
    · exact List.Forall₂.cons ⟨hxy.1, hxy.2.1, Or.inr rfl⟩ (by assumption)
    · exact List.Forall₂.cons hxy ih

/-- Whatever the path, `updateCapacities` keeps the links in place with their
endpoints, and each capacity is kept or set to 0: a link of capacity 0 stays
at 0. -/
theorem updateCapacities_lowered :
    ∀ (path : List String) {links0 links : List Link}, List.Forall₂ Lowered links0 links →
      List.Forall₂ Lowered links0 (updateCapacities links path) := by
  intro path
  induction path with
  | nil => intro links0 links h; simpa [updateCapacities] using h
  | cons a t ih =>
    intro links0 links h
    cases t with
    | nil => simpa [updateCapacities] using h
    | cons b rest =>
      rw [updateCapacities]
      exact ih (clearLink_lowered a b h)

theorem updateCapacities_never_restores (links : List Link) (path : List String) :
    List.Forall₂ Lowered links (updateCapacities links path) :=
  updateCapacities_lowered path
    (List.forall₂_same.2 (fun _ _ => ⟨rfl, rfl, Or.inl rfl⟩))

/-! ## The timetable of the scheduler on routes of at least 3 rooms -/

theorem lookup_append_mid {A B : List (Nat × antState)} {j : Nat} {v : antState}
    (hA : ∀ e ∈ A, e.1 ≠ j) : (A ++ (j, v) :: B).lookup j = some v := by
  induction A with
  | nil => simp [List.lookup]
  | cons e rest ih =>
    obtain ⟨k, w⟩ := e
    have hk : (j == k) = false := by
      have := hA (k, w) (List.mem_cons_self _ _)
      simp only at this
      simpa using fun h => this h.symm
    simp only [List.cons_append, List.lookup, hk]
    exact ih (fun e he => hA e (List.mem_cons_of_mem _ he))

theorem setState_mid {A B : List (Nat × antState)} {j : Nat} {v w : antState}
    (hA : ∀ e ∈ A, e.1 ≠ j) (hB : ∀ e ∈ B, e.1 ≠ j) :
    setState (A ++ (j, v) :: B) j w = A ++ (j, w) :: B := by
  have hany : (A ++ (j, v) :: B).any (fun e => decide (e.1 = j)) = true := by
    simp
  have hmapA : A.map (fun e => if e.1 = j then (j, w) else e) = A := by
    conv_rhs => rw [← List.map_id A]
    apply List.map_congr_left
    intro e he
    simp [hA e he]
  have hmapB : B.map (fun e => if e.1 = j then (j, w) else e) = B := by
    conv_rhs => rw [← List.map_id B]
    apply List.map_congr_left
    intro e he
    simp [hB e he]
  unfold setState
  rw [if_pos hany, List.map_append, List.map_cons, hmapA, hmapB]
  simp

theorem setState_new {A : List (Nat × antState)} {j : Nat} {w : antState}
    (hA : ∀ e ∈ A, e.1 ≠ j) : setState A j w = A ++ [(j, w)] := by
  have hany : ¬ (A.any (fun e => decide (e.1 = j)) = true) := by
    simp only [List.any_eq_true, decide_eq_true_eq, not_exists, not_and]
    exact fun e he => hA e he
  unfold setState
  rw [if_neg hany]

theorem finCount_mid (A B : List (Nat × antState)) (x : Nat × antState) :
    finCount (A ++ x :: B) = finCount A + (if x.2.finished then 1 else 0) + finCount B := by
  unfold finCount
  rw [List.countP_append, List.countP_cons]
  omega

theorem TimedInput.route_get {paths : List (List String)} {antAssignments : List Nat}
    {antCount : Nat} (H : TimedInput paths antAssignments antCount) {k : Nat}
    (hk : k ≤ antCount) :
    antAssignments[k]? = some (routeOf antAssignments k) ∧
      ∃ path, paths[routeOf antAssignments k]? = some path ∧
        path.length = hopOf paths antAssignments k + 1 ∧
        2 ≤ hopOf paths antAssignments k := by
  have h1 : k < antAssignments.length := by rw [H.len]; omega
  have e1 : antAssignments[k]? = some antAssignments[k] := List.getElem?_eq_getElem h1
  have r1 : routeOf antAssignments k = antAssignments[k] := by simp [routeOf, e1]
  have h2 : antAssignments[k] < paths.length := H.idx _ (List.getElem_mem _)
  have e2 : paths[antAssignments[k]]? = some paths[antAssignments[k]] :=
    List.getElem?_eq_getElem h2
  have h3 : 3 ≤ (paths[antAssignments[k]]).length := H.rooms _ (List.getElem_mem _)
  refine ⟨by rw [r1]; exact e1, paths[antAssignments[k]], by rw [r1]; exact e2, ?_, ?_⟩
  · simp only [hopOf, r1, e2, Option.getD_some]; omega
  · simp only [hopOf, r1, e2, Option.getD_some]; omega
theorem advanceAnt_finished {paths : List (List String)} {ant : Nat} {s : Sched}
    {moves : List Move} {state : antState} (hl : s.antStates.lookup ant = some state)
    (hf : state.finished = true) : advanceAnt paths ant s moves = some (s, moves) := by
  simp [advanceAnt, hl, hf]

theorem advanceAnt_move {paths : List (List String)} {ant : Nat} {s : Sched}
    {moves : List Move} {state : antState} {path : List String} {room : String}
    (hl : s.antStates.lookup ant = some state) (hf : state.finished = false)
    (hp : paths[state.pathIdx]? = some path) (hlt : state.position < path.length - 1)
    (hfree : nextPosTaken s.antStates ant state.pathIdx (state.position + 1) = false)
    (hroom : path[state.position + 1]? = some room) :
    advanceAnt paths ant s moves =
      some ({ antStates := setState s.antStates ant
                { pathIdx := state.pathIdx, position := state.position + 1,
                  finished := decide (state.position + 1 = path.length - 1) }
              activeAnts := if state.position + 1 = path.length - 1 then s.activeAnts - 1
                else s.activeAnts
              startedAnts := s.startedAnts
              finishedAnts := if state.position + 1 = path.length - 1 then s.finishedAnts + 1
                else s.finishedAnts },
            moves ++ [(ant, room)]) := by
  unfold advanceAnt
  simp only [hl, hf, hp, hlt, hfree, hroom, if_true, Bool.false_eq_true, if_false]
  by_cases h : state.position + 1 = path.length - 1
  · simp [h]
  · simp [h]

theorem antAt_succ_finished {paths : List (List String)} {antAssignments : List Nat}
    {t k : Nat} (h : hopOf paths antAssignments k ≤ t + 2 - k) :
    antAt paths antAssignments (t + 1) k = antAt paths antAssignments t k := by
  have h' : hopOf paths antAssignments k ≤ t + 1 + 2 - k := by omega
  simp only [antAt, h, h', decide_True, Nat.min_eq_right]

theorem antAt_finished_true {paths : List (List String)} {antAssignments : List Nat}
    {t k : Nat} (h : hopOf paths antAssignments k ≤ t + 2 - k) :
    (antAt paths antAssignments t k).finished = true := by
  show decide (hopOf paths antAssignments k ≤ t + 2 - k) = true
  exact decide_eq_true h

theorem antAt_finished_false {paths : List (List String)} {antAssignments : List Nat}
    {t k : Nat} (h : ¬ hopOf paths antAssignments k ≤ t + 2 - k) :
    (antAt paths antAssignments t k).finished = false := by
  show decide (hopOf paths antAssignments k ≤ t + 2 - k) = false
  exact decide_eq_false h

theorem antAt_finished_iff {paths : List (List String)} {antAssignments : List Nat}
    {t k : Nat} :
    (antAt paths antAssignments t k).finished = true ↔
      hopOf paths antAssignments k ≤ t + 2 - k := by
  show decide (hopOf paths antAssignments k ≤ t + 2 - k) = true ↔ _
  exact decide_eq_true_iff

theorem antAt_position (paths : List (List String)) (antAssignments : List Nat) (t k : Nat) :
    (antAt paths antAssignments t k).position =
      min (t + 2 - k) (hopOf paths antAssignments k) := rfl

theorem nextPosTaken_false_of {antStates : List (Nat × antState)} {ant pathIdx nextPos : Nat}
    (h : ∀ e ∈ antStates, e.1 ≠ ant → e.2.finished = false → e.2.position ≠ nextPos) :
    nextPosTaken antStates ant pathIdx nextPos = false := by
  unfold nextPosTaken
  rw [List.any_eq_false]
  intro e he hcond
  simp only [Bool.and_eq_true, decide_eq_true_eq, Bool.not_eq_true'] at hcond
  exact h e he hcond.1.1.1 hcond.1.1.2 hcond.2

theorem advanceAnt_timed {paths : List (List String)} {antAssignments : List Nat}
    {antCount : Nat} (H : TimedInput paths antAssignments antCount) {t j : Nat}
    {A B : List (Nat × antState)} {s : Sched} (moves : List Move)
    (hs : s.antStates = A ++ (j, antAt paths antAssignments t j) :: B)
    (hjn : j ≤ antCount) (hjt : j ≤ t + 1)
    (hA : ∀ e ∈ A, ∃ k, k < j ∧ e = (k, antAt paths antAssignments (t + 1) k))
    (hB : ∀ e ∈ B, ∃ k, j < k ∧ e = (k, antAt paths antAssignments t k)) :
    ∃ r, advanceAnt paths j s moves = some r ∧
      r.1.antStates = A ++ (j, antAt paths antAssignments (t + 1) j) :: B ∧
      r.1.startedAnts = s.startedAnts ∧
      r.1.finishedAnts + finCount s.antStates = s.finishedAnts + finCount r.1.antStates ∧
      r.2.length = moves.length +
        (if (antAt paths antAssignments t j).finished then 0 else 1) := by
  have hAk : ∀ e ∈ A, e.1 ≠ j := by
    intro e he
    obtain ⟨k, hk, rfl⟩ := hA e he
    simp only; omega
  have hBk : ∀ e ∈ B, e.1 ≠ j := by
    intro e he
    obtain ⟨k, hk, rfl⟩ := hB e he
    simp only; omega
  obtain ⟨_, path, hp, hlen, hhop⟩ := H.route_get hjn
  have hl : s.antStates.lookup j = some (antAt paths antAssignments t j) := by
    rw [hs]; exact lookup_append_mid hAk
  by_cases hf : hopOf paths antAssignments j ≤ t + 2 - j
  · have hfin := antAt_finished_true hf
    refine ⟨(s, moves), advanceAnt_finished hl hfin, ?_, rfl, rfl, ?_⟩
    · rw [antAt_succ_finished hf]; exact hs
    · simp [hfin]
  · have hfin := antAt_finished_false hf
    have hpos : (antAt paths antAssignments t j).position = t + 2 - j := by
      rw [antAt_position]; omega
    have hidx : (antAt paths antAssignments t j).pathIdx = routeOf antAssignments j := rfl
    have hfree : nextPosTaken s.antStates j (antAt paths antAssignments t j).pathIdx
        ((antAt paths antAssignments t j).position + 1) = false := by
      apply nextPosTaken_false_of
      intro e he hne hunf
      rw [hs] at he
      rw [hpos]
      rcases List.mem_append.1 he with he | he
      · obtain ⟨k, hk, rfl⟩ := hA e he
        have hfk : ¬ hopOf paths antAssignments k ≤ t + 1 + 2 - k := by
          intro h
          have := antAt_finished_true h
          simp only at hunf
          rw [this] at hunf
          cases hunf
        show (antAt paths antAssignments (t + 1) k).position ≠ t + 2 - j + 1
        rw [antAt_position]; omega
      · rcases List.mem_cons.1 he with he | he
        · subst he
          exact absurd rfl hne
        · obtain ⟨k, hk, rfl⟩ := hB e he
          show (antAt paths antAssignments t k).position ≠ t + 2 - j + 1
          rw [antAt_position]; omega
    have hroom : ∃ room, path[(antAt paths antAssignments t j).position + 1]? = some room := by
      have : (antAt paths antAssignments t j).position + 1 < path.length := by
        rw [hpos]; omega
      exact ⟨_, List.getElem?_eq_getElem this⟩
    obtain ⟨room, hroom⟩ := hroom
    have hstep := @advanceAnt_move _ _ _ moves _ _ _ hl hfin (by rw [hidx]; exact hp)
      (by rw [hpos]; omega) hfree hroom
    have hc : ((antAt paths antAssignments t j).position + 1 = path.length - 1) ↔
        (hopOf paths antAssignments j ≤ t + 1 + 2 - j) := by rw [hpos]; omega
    have hnew : ({ pathIdx := (antAt paths antAssignments t j).pathIdx
                   position := (antAt paths antAssignments t j).position + 1
                   finished := decide ((antAt paths antAssignments t j).position + 1 =
                     path.length - 1) } : antState) =
        antAt paths antAssignments (t + 1) j := by
      have e1 : (antAt paths antAssignments t j).position + 1 =
          min (t + 1 + 2 - j) (hopOf paths antAssignments j) := by rw [hpos]; omega
      have e2 : decide ((antAt paths antAssignments t j).position + 1 = path.length - 1) =
          decide (hopOf paths antAssignments j ≤ t + 1 + 2 - j) := by
        rw [decide_eq_decide]; exact hc
      rw [e2, e1]
      rfl
    rw [hnew, hs, setState_mid hAk hBk] at hstep
    refine ⟨_, hstep, rfl, rfl, ?_, ?_⟩
    · simp only [hs, finCount_mid, hfin]
      by_cases h1 : hopOf paths antAssignments j ≤ t + 1 + 2 - j
      · rw [if_pos (hc.2 h1), antAt_finished_true h1]
        simp only [Bool.false_eq_true, if_false, if_true]
        omega
      · rw [if_neg (fun h => h1 (hc.1 h)), antAt_finished_false h1]
    · simp [hfin]
theorem advanceLoop_timed {paths : List (List String)} {antAssignments : List Nat}
    {antCount : Nat} (H : TimedInput paths antAssignments antCount) {t : Nat} :
    ∀ (cnt j : Nat) (A : List (Nat × antState)) (s : Sched) (moves : List Move),
      s.antStates = A ++ (List.range' j cnt).map (stateAt paths antAssignments t) →
      j + cnt ≤ antCount + 1 → j + cnt ≤ t + 2 →
      (∀ e ∈ A, ∃ k, k < j ∧ e = (k, antAt paths antAssignments (t + 1) k)) →
      ∃ r, advanceLoop paths (List.range' j cnt) s moves = some r ∧
        r.1.antStates = A ++ (List.range' j cnt).map (stateAt paths antAssignments (t + 1)) ∧
        r.1.startedAnts = s.startedAnts ∧
        r.1.finishedAnts + finCount s.antStates = s.finishedAnts + finCount r.1.antStates ∧
        r.2.length = moves.length +
          ((List.range' j cnt).map (stateAt paths antAssignments t)).countP
            (fun e => !e.2.finished) := by
  intro cnt
  induction cnt with
  | zero =>
    intro j A s moves hs _ _ _
    refine ⟨(s, moves), rfl, ?_, rfl, rfl, ?_⟩
    · simpa using hs
    · simp
  | succ cnt ih =>
    intro j A s moves hs hn ht hA
    rw [List.range'_succ] at hs ⊢
    simp only [List.map_cons] at hs ⊢
    have hB : ∀ e ∈ (List.range' (j + 1) cnt).map (stateAt paths antAssignments t),
        ∃ k, j < k ∧ e = (k, antAt paths antAssignments t k) := by
      intro e he
      obtain ⟨k, hk, rfl⟩ := List.mem_map.1 he
      rw [List.mem_range'_1] at hk
      exact ⟨k, by omega, rfl⟩
    obtain ⟨r1, hr1, hst1, hsa1, hfin1, hmv1⟩ :=
      advanceAnt_timed H moves hs (by omega) (by omega) hA hB
    have hA' : ∀ e ∈ A ++ [(j, antAt paths antAssignments (t + 1) j)],
        ∃ k, k < j + 1 ∧ e = (k, antAt paths antAssignments (t + 1) k) := by
      intro e he
      rcases List.mem_append.1 he with he | he
      · obtain ⟨k, hk, rfl⟩ := hA e he
        exact ⟨k, by omega, rfl⟩
      · simp at he
        exact ⟨j, by omega, he⟩
    obtain ⟨r2, hr2, hst2, hsa2, hfin2, hmv2⟩ :=
      ih (j + 1) (A ++ [(j, antAt paths antAssignments (t + 1) j)]) r1.1 r1.2
        (by rw [hst1]; simp) (by omega) (by omega) hA'
    refine ⟨r2, ?_, ?_, ?_, ?_, ?_⟩
    · simp only [advanceLoop, hr1, hr2]
    · rw [hst2]
      simp [stateAt]
    · rw [hsa2, hsa1]
    · omega
    · rw [hmv2, hmv1, List.countP_cons]
      by_cases hf : (antAt paths antAssignments t j).finished = true
      · simp [stateAt, hf]
      · simp [stateAt, hf]
        omega

theorem startNewAnt_start {paths : List (List String)} {antAssignments : List Nat}
    {antCount : Nat} {s : Sched} {pathIdx : Nat} {path : List String} {room : String}
    (hlt : s.startedAnts < antCount)
    (ha : antAssignments[s.startedAnts + 1]? = some pathIdx)
    (hfree : firstRoomTaken s.antStates pathIdx = false)
    (hp : paths[pathIdx]? = some path) (hroom : path[1]? = some room) :
    startNewAnt paths antAssignments antCount s =
      some ({ antStates := setState s.antStates (s.startedAnts + 1)
                { pathIdx := pathIdx, position := 1, finished := false }
              activeAnts := s.activeAnts + 1
              startedAnts := s.startedAnts + 1
              finishedAnts := s.finishedAnts },
            [(s.startedAnts + 1, room)]) := by
  simp [startNewAnt, hlt, ha, hfree, hp, hroom]

theorem startNewAnt_timed {paths : List (List String)} {antAssignments : List Nat}
    {antCount : Nat} (H : TimedInput paths antAssignments antCount) {t : Nat} {s : Sched}
    (hs : Timed paths antAssignments antCount t s) :
    ∃ r, startNewAnt paths antAssignments antCount s = some r ∧
      r.1.antStates = statesAt paths antAssignments t (min (t + 1) antCount) ∧
      r.1.startedAnts = min (t + 1) antCount ∧
      r.1.finishedAnts = finCount r.1.antStates ∧
      r.2.length = (if t < antCount then 1 else 0) := by
  by_cases hlt : t < antCount
  · have hmin : min t antCount = t := by omega
    have hmin' : min (t + 1) antCount = t + 1 := by omega
    have hst : s.antStates = statesAt paths antAssignments t t := by
      rw [hs.states, hmin]
    have hsa : s.startedAnts = t := by rw [hs.started, hmin]
    obtain ⟨hr, path, hp, hlen, hhop⟩ := H.route_get (k := t + 1) (by omega)
    have hfree : firstRoomTaken s.antStates (routeOf antAssignments (t + 1)) = false := by
      unfold firstRoomTaken
      rw [List.any_eq_false]
      intro e he hcond
      simp only [Bool.and_eq_true, decide_eq_true_eq, Bool.not_eq_true'] at hcond
      rw [hst] at he
      obtain ⟨k, hk, rfl⟩ := List.mem_map.1 he
      rw [List.mem_range'_1] at hk
      obtain ⟨_, _, _, hhopk⟩ := H.route_get (k := k) (by omega)
      have : (antAt paths antAssignments t k).position = 1 := hcond.2
      rw [antAt_position] at this
      omega
    have hroom : path[1]? = some path[1] := List.getElem?_eq_getElem (by omega)
    have hstep := startNewAnt_start (s := s) (by rw [hsa]; exact hlt)
      (by rw [hsa]; exact hr) hfree hp hroom
    have hkeys : ∀ e ∈ s.antStates, e.1 ≠ s.startedAnts + 1 := by
      intro e he
      rw [hst] at he
      obtain ⟨k, hk, rfl⟩ := List.mem_map.1 he
      rw [List.mem_range'_1] at hk
      simp only [stateAt]; omega
    have hnew : ({ pathIdx := routeOf antAssignments (t + 1), position := 1,
                   finished := false } : antState) =
        antAt paths antAssignments t (t + 1) := by
      have e1 : min (t + 2 - (t + 1)) (hopOf paths antAssignments (t + 1)) = 1 := by omega
      have e2 : decide (hopOf paths antAssignments (t + 1) ≤ t + 2 - (t + 1)) = false := by
        apply decide_eq_false; omega
      show _ = ({ pathIdx := _, position := min _ _, finished := decide _ } : antState)
      rw [e1, e2]
    rw [setState_new hkeys, hnew, hsa] at hstep
    have hlist : s.antStates ++ [(t + 1, antAt paths antAssignments t (t + 1))] =
        statesAt paths antAssignments t (t + 1) := by
      rw [hst]
      have e : 1 + t = t + 1 := Nat.add_comm 1 t
      simp only [statesAt, List.range'_1_concat, List.map_append, List.map_cons, List.map_nil,
        stateAt, e]
    refine ⟨_, hstep, ?_, ?_, ?_, ?_⟩
    · rw [hmin']; exact hlist
    · rw [hmin']
    · show s.finishedAnts =
        finCount (s.antStates ++ [(t + 1, antAt paths antAssignments t (t + 1))])
      rw [hs.fin, ← hnew]
      simp [finCount, List.countP_append]
    · simp [hlt]
  · have hmin : min t antCount = antCount := by omega
    have hmin' : min (t + 1) antCount = antCount := by omega
    have hsa : ¬ s.startedAnts < antCount := by rw [hs.started, hmin]; omega
    refine ⟨(s, []), by simp [startNewAnt, hsa], ?_, ?_, hs.fin, by simp [hlt]⟩
    · rw [hmin', hs.states, hmin]
    · rw [hmin', hs.started, hmin]

theorem turn_timed {paths : List (List String)} {antAssignments : List Nat}
    {antCount : Nat} (H : TimedInput paths antAssignments antCount) {t : Nat} {s : Sched}
    (hs : Timed paths antAssignments antCount t s) :
    ∃ r, turn paths antAssignments antCount s = some r ∧
      Timed paths antAssignments antCount (t + 1) r.1 ∧
      r.2.length = (if t < antCount then 1 else 0) +
        (statesAt paths antAssignments t (min (t + 1) antCount)).countP
          (fun e => !e.2.finished) := by
  obtain ⟨r1, hr1, hst1, hsa1, hfin1, hmv1⟩ := startNewAnt_timed H hs
  obtain ⟨r2, hr2, hst2, hsa2, hfin2, hmv2⟩ :=
    advanceLoop_timed H (t := t) (min (t + 1) antCount) 1 [] r1.1 r1.2
      (by rw [hst1]; rfl) (by omega) (by omega) (by intro e he; cases he)
  refine ⟨r2, ?_, ⟨?_, ?_, ?_⟩, ?_⟩
  · simp only [turn, hr1, hsa1, hr2]
  · rw [hst2]; rfl
  · rw [hsa2, hsa1]
  · omega
  · rw [hmv2, hmv1]; rfl
theorem le_foldr_max : ∀ (l : List Nat) (x : Nat), x ∈ l → x ≤ l.foldr max 0 := by
  intro l
  induction l with
  | nil => intro x hx; cases hx
  | cons a t ih =>
    intro x hx
    rcases List.mem_cons.1 hx with h | h
    · rw [h]; exact Nat.le_max_left _ _
    · exact Nat.le_trans (ih x h) (Nat.le_max_right _ _)

theorem foldr_max_mem : ∀ (l : List Nat), l ≠ [] → l.foldr max 0 ∈ l := by
  intro l
  induction l with
  | nil => intro h; exact absurd rfl h
  | cons a t ih =>
    intro _
    by_cases ht : t = []
    · subst ht
      simp
    · have := ih ht
      simp only [List.foldr_cons]
      rcases Nat.le_total a (t.foldr max 0) with h | h
      · rw [Nat.max_eq_right h]; exact List.mem_cons_of_mem _ this
      · rw [Nat.max_eq_left h]; exact List.mem_cons_self _ _

theorem le_lastArrival (paths : List (List String)) (antAssignments : List Nat)
    (antCount : Nat) {k : Nat} (h1 : 1 ≤ k) (h2 : k ≤ antCount) :
    k + hopOf paths antAssignments k - 2 ≤ lastArrival paths antAssignments antCount := by
  apply le_foldr_max
  apply List.mem_map.2
  exact ⟨k, by rw [List.mem_range'_1]; omega, rfl⟩

theorem lastArrival_attained (paths : List (List String)) (antAssignments : List Nat)
    {antCount : Nat} (h : 1 ≤ antCount) :
    ∃ k, 1 ≤ k ∧ k ≤ antCount ∧
      lastArrival paths antAssignments antCount = k + hopOf paths antAssignments k - 2 := by
  have hne : (List.range' 1 antCount).map
      (fun k => k + hopOf paths antAssignments k - 2) ≠ [] := by
    intro e
    have := congrArg List.length e
    simp at this
    omega
  obtain ⟨k, hk, e⟩ := List.mem_map.1 (foldr_max_mem _ hne)
  rw [List.mem_range'_1] at hk
  exact ⟨k, by omega, by omega, e.symm⟩

theorem lastArrival_zero (paths : List (List String)) (antAssignments : List Nat) :
    lastArrival paths antAssignments 0 = 0 := rfl

theorem Timed.running_iff {paths : List (List String)} {antAssignments : List Nat}
    {antCount : Nat} (H : TimedInput paths antAssignments antCount) {t : Nat} {s : Sched}
    (hs : Timed paths antAssignments antCount t s) :
    s.finishedAnts < antCount ↔ t < lastArrival paths antAssignments antCount := by
  have hfin : s.finishedAnts =
      finCount (statesAt paths antAssignments t (min t antCount)) := by
    rw [hs.fin, hs.states]
  have hlen : (statesAt paths antAssignments t (min t antCount)).length = min t antCount := by
    simp [statesAt]
  have hle : s.finishedAnts ≤ min t antCount := by
    have h := List.countP_le_length (fun e : Nat × antState => e.2.finished)
      (l := statesAt paths antAssignments t (min t antCount))
    rw [hlen] at h
    rw [hfin]; exact h
  constructor
  · intro hlt
    by_contra hge
    have hge' : lastArrival paths antAssignments antCount ≤ t := by omega
    have hpos : 1 ≤ antCount := by omega
    have hall : ∀ k, 1 ≤ k → k ≤ antCount →
        hopOf paths antAssignments k ≤ t + 2 - k := by
      intro k h1 h2
      have := le_lastArrival paths antAssignments antCount h1 h2
      omega
    have hn := hall antCount hpos (Nat.le_refl _)
    obtain ⟨_, _, _, _, hhop⟩ := H.route_get (k := antCount) (Nat.le_refl _)
    have hmin : min t antCount = antCount := by omega
    have : finCount (statesAt paths antAssignments t (min t antCount)) =
        (statesAt paths antAssignments t (min t antCount)).length := by
      unfold finCount
      rw [List.countP_eq_length]
      intro e he
      obtain ⟨k, hk, rfl⟩ := List.mem_map.1 he
      rw [List.mem_range'_1] at hk
      exact antAt_finished_true (hall k (by omega) (by omega))
    omega
  · intro hlt
    have hpos : 1 ≤ antCount := by
      by_contra h0
      have : antCount = 0 := by omega
      subst this
      rw [lastArrival_zero] at hlt
      omega
    obtain ⟨k, h1, h2, e⟩ := lastArrival_attained paths antAssignments hpos
    obtain ⟨_, _, _, _, hhop⟩ := H.route_get (k := k) h2
    by_cases hmin : min t antCount < antCount
    · omega
    · have hmin' : min t antCount = antCount := by omega
      have hne : finCount (statesAt paths antAssignments t (min t antCount)) ≠
          (statesAt paths antAssignments t (min t antCount)).length := by
        unfold finCount
        rw [Ne, List.countP_eq_length]
        intro hall
        have hmem : stateAt paths antAssignments t k ∈
            statesAt paths antAssignments t (min t antCount) := by
          apply List.mem_map.2
          exact ⟨k, by rw [List.mem_range'_1]; omega, rfl⟩
        have := antAt_finished_iff.1 (hall _ hmem)
        omega
      omega

theorem turn_timed_moves {paths : List (List String)} {antAssignments : List Nat}
    {antCount : Nat} (H : TimedInput paths antAssignments antCount) {t : Nat} {s : Sched}
    (hs : Timed paths antAssignments antCount t s)
    (hlt : t < lastArrival paths antAssignments antCount) :
    ∃ r, turn paths antAssignments antCount s = some r ∧
      Timed paths antAssignments antCount (t + 1) r.1 ∧ r.2 ≠ [] := by
  obtain ⟨r, hr, ht, hlen⟩ := turn_timed H hs
  refine ⟨r, hr, ht, ?_⟩
  intro he
  rw [he] at hlen
  simp only [List.length_nil] at hlen
  by_cases hn : t < antCount
  · rw [if_pos hn] at hlen
    omega
  · have hpos : 1 ≤ antCount := by
      by_contra h0
      have : antCount = 0 := by omega
      subst this
      rw [lastArrival_zero] at hlt
      omega
    obtain ⟨k, h1, h2, e⟩ := lastArrival_attained paths antAssignments hpos
    have hmem : stateAt paths antAssignments t k ∈
        statesAt paths antAssignments t (min (t + 1) antCount) := by
      apply List.mem_map.2
      exact ⟨k, by rw [List.mem_range'_1]; omega, rfl⟩
    have hunf : (antAt paths antAssignments t k).finished = false := by
      apply antAt_finished_false
      obtain ⟨_, _, _, _, hhop⟩ := H.route_get (k := k) h2
      omega
    have : 0 < (statesAt paths antAssignments t (min (t + 1) antCount)).countP
        (fun e => !e.2.finished) := by
      rw [List.countP_pos_iff]
      exact ⟨_, hmem, by simp [stateAt, hunf]⟩
    omega

theorem turnLoop_timed {paths : List (List String)} {antAssignments : List Nat}
    {antCount : Nat} (H : TimedInput paths antAssignments antCount) :
    ∀ (d t : Nat) (s : Sched) (out : List (List Move)),
      Timed paths antAssignments antCount t s →
      t + d = lastArrival paths antAssignments antCount → out.length = t →
      (∀ b ∈ out, b ≠ []) →
      ∃ batches, (∀ fuel, d + 1 ≤ fuel →
          turnLoop paths antAssignments antCount fuel s out = Run.done batches) ∧
        batches.length = lastArrival paths antAssignments antCount ∧
        ∀ b ∈ batches, b ≠ [] := by
  intro d
  induction d with
  | zero =>
    intro t s out hs ht hlen hne
    refine ⟨out, ?_, by omega, hne⟩
    intro fuel hfuel
    obtain ⟨f, rfl⟩ : ∃ f, fuel = f + 1 := ⟨fuel - 1, by omega⟩
    have : ¬ s.finishedAnts < antCount := by
      rw [hs.running_iff H]; omega
    simp [turnLoop, this]
  | succ d ih =>
    intro t s out hs ht hlen hne
    have hrun : s.finishedAnts < antCount := by
      rw [hs.running_iff H]; omega
    obtain ⟨r, hr, ht', hmv⟩ := turn_timed_moves H hs (by omega)
    obtain ⟨batches, hb1, hb2, hb3⟩ := ih (t + 1) r.1 (out ++ [r.2]) ht' (by omega)
      (by simp [hlen])
      (by
        intro b hb
        rcases List.mem_append.1 hb with hb | hb
        · exact hne b hb
        · simp at hb; rw [hb]; exact hmv)
    refine ⟨batches, ?_, hb2, hb3⟩
    intro fuel hfuel
    obtain ⟨f, rfl⟩ : ∃ f, fuel = f + 1 := ⟨fuel - 1, by omega⟩
    rw [turnLoop, if_pos hrun, hr]
    simp only [hmv, if_false]
    exact hb1 f (by omega)

theorem afterTurns_timed {paths : List (List String)} {antAssignments : List Nat}
    {antCount : Nat} (H : TimedInput paths antAssignments antCount) :
    ∀ (d t : Nat) (s : Sched), Timed paths antAssignments antCount t s →
      t + d ≤ lastArrival paths antAssignments antCount →
      ∃ s', afterTurns paths antAssignments antCount d s = some s' ∧
        Timed paths antAssignments antCount (t + d) s' := by
  intro d
  induction d with
  | zero =>
    intro t s hs _
    exact ⟨s, rfl, hs⟩
  | succ d ih =>
    intro t s hs ht
    have hrun : s.finishedAnts < antCount := by
      rw [hs.running_iff H]; omega
    obtain ⟨r, hr, ht', _⟩ := turn_timed_moves H hs (by omega)
    obtain ⟨s', h1, h2⟩ := ih (t + 1) r.1 ht' (by omega)
    refine ⟨s', ?_, ?_⟩
    · rw [afterTurns, if_pos hrun, hr]
      exact h1
    · have e : t + (d + 1) = t + 1 + d := by omega
      rw [e]; exact h2

theorem initSched_timed (paths : List (List String)) (antAssignments : List Nat)
    (antCount : Nat) : Timed paths antAssignments antCount 0 initSched := by
  refine ⟨?_, ?_, ?_⟩
  · simp [initSched, statesAt]
  · simp [initSched]
  · simp [initSched, finCount]

theorem lookup_statesAt (paths : List (List String)) (antAssignments : List Nat)
    (t k : Nat) :
    ∀ (cnt j : Nat),
      ((List.range' j cnt).map (stateAt paths antAssignments t)).lookup k =
        if j ≤ k ∧ k < j + cnt then some (antAt paths antAssignments t k) else none := by
  intro cnt
  induction cnt with
  | zero =>
    intro j
    have : ¬ (j ≤ k ∧ k < j + 0) := by omega
    rw [if_neg this]
    rfl
  | succ cnt ih =>
    intro j
    rw [List.range'_succ, List.map_cons]
    by_cases hk : k = j
    · subst hk
      have : k ≤ k ∧ k < k + (cnt + 1) := by omega
      simp [stateAt, List.lookup, this]
    · have hb : (k == j) = false := by simpa using hk
      simp only [stateAt, List.lookup, hb] at ih ⊢
      rw [ih (j + 1)]
      by_cases hc : j ≤ k ∧ k < j + (cnt + 1)
      · have : j + 1 ≤ k ∧ k < j + 1 + cnt := by omega
        rw [if_pos hc, if_pos this]
      · have : ¬ (j + 1 ≤ k ∧ k < j + 1 + cnt) := by omega
        rw [if_neg hc, if_neg this]
theorem afterTurns_stop {paths : List (List String)} {antAssignments : List Nat}
    {antCount : Nat} (H : TimedInput paths antAssignments antCount) :
    ∀ (d t : Nat) (s : Sched), Timed paths antAssignments antCount t s →
      t + d = lastArrival paths antAssignments antCount →
      afterTurns paths antAssignments antCount (d + 1) s = none := by
  intro d
  induction d with
  | zero =>
    intro t s hs ht
    have : ¬ s.finishedAnts < antCount := by
      rw [hs.running_iff H]; omega
    rw [afterTurns, if_neg this]
  | succ d ih =>
    intro t s hs ht
    have hrun : s.finishedAnts < antCount := by
      rw [hs.running_iff H]; omega
    obtain ⟨r, hr, ht', _⟩ := turn_timed_moves H hs (by omega)
    rw [afterTurns, if_pos hrun, hr]
    exact ih (t + 1) r.1 ht' (by omega)

/-- C18 fails for the ant count `2^63 - 1`: with the single route `[S, A, E]`
the length `antCount + 1` of `make([]int, antCount+1)` wraps to `-2^63`,
`make` panics and there is no first turn, so no ant is ever admitted,
although the route has 3 rooms and the count is at least 1. -/
theorem moveAnts_maxInt_panics :
    [["S", "A", "E"]] ≠ [] ∧ (∀ p ∈ [["S", "A", "E"]], 3 ≤ p.length) ∧
      1 ≤ 9223372036854775807 ∧
      assignAnts [["S", "A", "E"]] 9223372036854775807 = none ∧
      (∀ fuel, moveAnts fuel [["S", "A", "E"]] 9223372036854775807 = Run.panic) ∧
      ∀ t, schedAfter [["S", "A", "E"]] 9223372036854775807 t = none := by
  have h : assignAnts [["S", "A", "E"]] 9223372036854775807 = none :=
    assignAnts_of_le _ (Nat.le_refl _)
  refine ⟨by decide, by decide, by decide, h, ?_, ?_⟩
  · intro fuel
    rw [moveAnts, h]
  · intro t
    rw [schedAfter, h]

/-- C18 (exact timing when every route has at least 3 rooms, for an ant count
below `2^63 - 1`): `moveAnts`
returns after `T` turns, where `T` is the maximum over the ants `k` of
`k + hopLength(route(k)) - 2`; every turn prints a non-empty batch; ant `k` is
absent from `antStates` before turn `k` and present from turn `k` on
(admitted in turn `k`), and it is marked finished, at the last index of its
route, exactly from turn `k + hopLength(route(k)) - 2` on. -/
theorem moveAnts_timetable (paths : List (List String)) (antCount : Nat)
    (hne : paths ≠ []) (hrooms : ∀ p ∈ paths, 3 ≤ p.length) (hn : 1 ≤ antCount)
    (hmax : antCount < maxInt) :
    ∃ antAssignments batches,
      assignAnts paths antCount = some antAssignments ∧
      (∀ fuel, lastArrival paths antAssignments antCount + 1 ≤ fuel →
        moveAnts fuel paths antCount = Run.done batches) ∧
      batches.length = lastArrival paths antAssignments antCount ∧
      (∀ b ∈ batches, b ≠ []) ∧
      schedAfter paths antCount (lastArrival paths antAssignments antCount + 1) = none ∧
      (∀ k, 1 ≤ k → k ≤ antCount →
        k + hopOf paths antAssignments k - 2 ≤ lastArrival paths antAssignments antCount) ∧
      (∃ k, 1 ≤ k ∧ k ≤ antCount ∧
        lastArrival paths antAssignments antCount = k + hopOf paths antAssignments k - 2) ∧
      ∀ t, t ≤ lastArrival paths antAssignments antCount →
        ∃ s, schedAfter paths antCount t = some s ∧
          ∀ k, 1 ≤ k → k ≤ antCount →
            (t < k → s.antStates.lookup k = none) ∧
            (k ≤ t → ∃ st, s.antStates.lookup k = some st ∧
              st.pathIdx = routeOf antAssignments k ∧
              st.position = min (t + 2 - k) (hopOf paths antAssignments k) ∧
              (st.finished = true ↔ k + hopOf paths antAssignments k - 2 ≤ t)) := by
  obtain ⟨asg, hasg, hlen, hidx⟩ := assignAnts_safe hne hmax
  have H : TimedInput paths asg antCount := ⟨hlen, hidx, hrooms⟩
  have h0 := initSched_timed paths asg antCount
  obtain ⟨batches, hb1, hb2, hb3⟩ :=
    turnLoop_timed H (lastArrival paths asg antCount) 0 initSched [] h0 (by omega) rfl
      (by intro b hb; cases hb)
  refine ⟨asg, batches, hasg, ?_, hb2, hb3, ?_, ?_, ?_, ?_⟩
  · intro fuel hfuel
    simp only [moveAnts, hasg]
    exact hb1 fuel hfuel
  · simp only [schedAfter, hasg]
    exact afterTurns_stop H (lastArrival paths asg antCount) 0 initSched h0 (by omega)
  · intro k h1 h2
    exact le_lastArrival paths asg antCount h1 h2
  · exact lastArrival_attained paths asg hn
  · intro t ht
    obtain ⟨s, hs1, hs2⟩ := afterTurns_timed H t 0 initSched h0 (by omega)
    refine ⟨s, by simp only [schedAfter, hasg]; exact hs1, ?_⟩
    intro k h1 h2
    have hst : s.antStates = statesAt paths asg t (min t antCount) := by
      have := hs2.states
      simpa using this
    have hlook := lookup_statesAt paths asg t k (min t antCount) 1
    rw [← statesAt, ← hst] at hlook
    obtain ⟨_, _, _, _, hhop⟩ := H.route_get (k := k) h2
    constructor
    · intro hlt
      rw [hlook, if_neg (by omega)]
    · intro hle
      rw [hlook, if_pos (by omega)]
      refine ⟨_, rfl, rfl, rfl, ?_⟩
      rw [antAt_finished_iff]
      omega

theorem moveAnts_timetable_witness :
    [["S", "A", "E"], ["S", "B", "C", "E"]] ≠ [] ∧
      (∀ p ∈ [["S", "A", "E"], ["S", "B", "C", "E"]], 3 ≤ p.length) ∧ 1 ≤ 3 ∧
      3 < maxInt ∧
      ∃ antAssignments batches,
        assignAnts [["S", "A", "E"], ["S", "B", "C", "E"]] 3 = some antAssignments ∧
        (∀ fuel, lastArrival [["S", "A", "E"], ["S", "B", "C", "E"]] antAssignments 3 + 1 ≤ fuel →
          moveAnts fuel [["S", "A", "E"], ["S", "B", "C", "E"]] 3 = Run.done batches) ∧
        batches.length = lastArrival [["S", "A", "E"], ["S", "B", "C", "E"]] antAssignments 3 ∧
        (∀ b ∈ batches, b ≠ []) ∧
        schedAfter [["S", "A", "E"], ["S", "B", "C", "E"]] 3
          (lastArrival [["S", "A", "E"], ["S", "B", "C", "E"]] antAssignments 3 + 1) = none ∧
        (∀ k, 1 ≤ k → k ≤ 3 →
          k + hopOf [["S", "A", "E"], ["S", "B", "C", "E"]] antAssignments k - 2 ≤
            lastArrival [["S", "A", "E"], ["S", "B", "C", "E"]] antAssignments 3) ∧
        (∃ k, 1 ≤ k ∧ k ≤ 3 ∧
          lastArrival [["S", "A", "E"], ["S", "B", "C", "E"]] antAssignments 3 =
            k + hopOf [["S", "A", "E"], ["S", "B", "C", "E"]] antAssignments k - 2) ∧
        ∀ t, t ≤ lastArrival [["S", "A", "E"], ["S", "B", "C", "E"]] antAssignments 3 →
          ∃ s, schedAfter [["S", "A", "E"], ["S", "B", "C", "E"]] 3 t = some s ∧
            ∀ k, 1 ≤ k → k ≤ 3 →
              (t < k → s.antStates.lookup k = none) ∧
              (k ≤ t → ∃ st, s.antStates.lookup k = some st ∧
                st.pathIdx = routeOf antAssignments k ∧
                st.position = min (t + 2 - k)
                  (hopOf [["S", "A", "E"], ["S", "B", "C", "E"]] antAssignments k) ∧
                (st.finished = true ↔
                  k + hopOf [["S", "A", "E"], ["S", "B", "C", "E"]] antAssignments k - 2 ≤ t)) :=
  ⟨by decide, by decide, by decide, by decide,
    moveAnts_timetable [["S", "A", "E"], ["S", "B", "C", "E"]] 3 (by decide) (by decide)
      (by decide) (by decide)⟩

/-! ## Input-order tie-breaking of the search -/

theorem lexLt_trans : ∀ (a b c : List Nat), lexLt a b → lexLt b c → lexLt a c := by
  intro a
  induction a with
  | nil => intro b c h; simp [lexLt] at h
  | cons x xs ih =>
    intro b c h1 h2
    cases b with
    | nil => simp [lexLt] at h1
    | cons y ys =>
      cases c with
      | nil => simp [lexLt] at h2
      | cons z zs =>
        simp only [lexLt] at h1 h2 ⊢
        rcases h1 with h1 | ⟨e1, h1⟩
        · rcases h2 with h2 | ⟨e2, _⟩
          · exact Or.inl (by omega)
          · exact Or.inl (by omega)
        · rcases h2 with h2 | ⟨e2, h2⟩
          · exact Or.inl (by omega)
          · exact Or.inr ⟨by omega, ih ys zs h1 h2⟩

theorem lexLt_append : ∀ (a b x y : List Nat), lexLt a b → lexLt (a ++ x) (b ++ y) := by
  intro a
  induction a with
  | nil => intro b x y h; simp [lexLt] at h
  | cons u us ih =>
    intro b x y h
    cases b with
    | nil => simp [lexLt] at h
    | cons v vs =>
      simp only [lexLt, List.cons_append] at h ⊢
      rcases h with h | ⟨e, h⟩
      · exact Or.inl h
      · exact Or.inr ⟨e, ih vs x y h⟩

theorem lexLt_snoc : ∀ (k : List Nat) (i j : Nat), i < j → lexLt (k ++ [i]) (k ++ [j]) := by
  intro k
  induction k with
  | nil => intro i j h; simp [lexLt, h]
  | cons u us ih =>
    intro i j h
    show u < u ∨ (u = u ∧ lexLt (us ++ [i]) (us ++ [j]))
    exact Or.inr ⟨rfl, ih i j h⟩

theorem hopIdx_append (u v : String) :
    ∀ (pre ls : List Link), (∀ l ∈ pre, ¬ (0 < l.capacity ∧ l.joins u v)) →
      hopIdx (pre ++ ls) u v = pre.length + hopIdx ls u v := by
  intro pre
  induction pre with
  | nil => intro ls _; simp
  | cons l pre ih =>
    intro ls h
    have h1 : ¬ (0 < l.capacity ∧ l.joins u v) := h l (List.mem_cons_self _ _)
    have h2 := ih ls (fun m hm => h m (List.mem_cons_of_mem _ hm))
    show hopIdx (l :: (pre ++ ls)) u v = (l :: pre).length + hopIdx ls u v
    rw [hopIdx, if_neg h1, h2, List.length_cons]
    omega

theorem hopIdx_first {u v : String} {pre ls : List Link} {l : Link}
    (h : ∀ m ∈ pre, ¬ (0 < m.capacity ∧ m.joins u v)) (hc : 0 < l.capacity)
    (hj : l.joins u v) : hopIdx (pre ++ l :: ls) u v = pre.length := by
  rw [hopIdx_append u v pre (l :: ls) h]
  simp [hopIdx, hc, hj]

theorem trail_cons_ne (k p v : String) (parent : List (String × String)) (h : v ≠ k) :
    trail ((k, p) :: parent) v = trail parent v := by
  simp [trail, h]

theorem trail_cons_self (k p : String) (parent : List (String × String)) :
    trail ((k, p) :: parent) k = trail parent p ++ [k] := by
  simp [trail]

theorem trail_getLast (parent : List (String × String)) :
    ∀ v, (trail parent v).getLast? = some v := by
  induction parent with
  | nil => intro v; simp [trail]
  | cons e rest ih =>
    intro v
    by_cases h : v = e.1
    · simp [trail, h]
    · simp [trail, h, ih v]

theorem hopSeq_snoc (links : List Link) :
    ∀ (w : List String) (u v : String), w.getLast? = some u →
      hopSeq links (w ++ [v]) = hopSeq links w ++ [hopIdx links u v] := by
  intro w
  induction w with
  | nil => intro u v h; simp at h
  | cons a w ih =>
    intro u v h
    cases w with
    | nil =>
      simp at h
      subst h
      simp [hopSeq]
    | cons b rest =>
      have h' : (b :: rest).getLast? = some u := by
        simpa [List.getLast?_cons_cons] using h
      have := ih u v h'
      simp only [List.cons_append] at this ⊢
      simp only [hopSeq, this, List.cons_append]

theorem before_trans {links : List Link} {parent : List (String × String)} {a b c : String}
    (h1 : Before links parent a b) (h2 : Before links parent b c) :
    Before links parent a c := by
  unfold Before at h1 h2 ⊢
  rcases h1 with h1 | ⟨e1, h1⟩
  · rcases h2 with h2 | ⟨e2, _⟩
    · exact Or.inl (by omega)
    · exact Or.inl (by omega)
  · rcases h2 with h2 | ⟨e2, h2⟩
    · exact Or.inl (by omega)
    · exact Or.inr ⟨by omega, lexLt_trans _ _ _ h1 h2⟩

theorem before_cons_iff {links : List Link} {parent : List (String × String)}
    {k p a b : String} (ha : a ≠ k) (hb : b ≠ k) :
    Before links ((k, p) :: parent) a b ↔ Before links parent a b := by
  unfold Before
  rw [depth_cons_ne _ _ _ _ ha, depth_cons_ne _ _ _ _ hb, trail_cons_ne _ _ _ _ ha,
    trail_cons_ne _ _ _ _ hb]

theorem trail_length (parent : List (String × String)) :
    ∀ v, (trail parent v).length = depth parent v + 1 := by
  induction parent with
  | nil => intro v; simp [trail, depth]
  | cons e rest ih =>
    intro v
    by_cases h : v = e.1
    · simp [trail, depth, h, ih e.2]
    · simp [trail, depth, h, ih v]

theorem initSearch_tie (links : List Link) (start : String) :
    TieBfs links start (initSearch start) := by
  refine ⟨by simp [initSearch, trail], ?_, ?_, ?_, ?_⟩
  · intro v hv hne
    simp [initSearch] at hv
    exact absurd hv hne
  · simp [initSearch]
  · intro p hp hpq
    simp [initSearch] at hp hpq
    exact absurd hp hpq
  · intro v hv hne
    simp [initSearch] at hv
    exact absurd hv hne

theorem tieScan_of_pop {links : List Link} {start cur : String} {st : Search}
    {rest : List String} (tie : TieBfs links start st) (hq : st.queue = cur :: rest) :
    TieScan links start cur [] { st with queue := rest } := by
  have hs := tie.q_sorted
  rw [hq] at hs
  have hcur : cur ∈ st.queue := by simp [hq]
  have hnq : ∀ p, p ∉ rest → p ≠ cur → p ∉ st.queue := by
    intro p h1 h2 h3
    rw [hq] at h3
    rcases List.mem_cons.1 h3 with h | h
    · exact h2 h
    · exact h1 h
  refine
    { t_start := tie.t_start, t_par := ?_, q_sorted := (List.pairwise_cons.1 hs).2
      cur_lt := fun q h => (List.pairwise_cons.1 hs).1 q h
      done_lt := ?_, child := ?_, pmin := tie.pmin }
  · intro v hv hne p hp
    obtain ⟨h1, h2⟩ := tie.t_par v hv hne p hp
    exact ⟨h1, fun h => h2 (by rw [hq]; exact List.mem_cons_of_mem _ h)⟩
  · intro p hp h1 h2
    exact tie.done_lt p hp (hnq p h1 h2) cur hcur
  · intro v hv hne hp
    exact absurd hcur (tie.t_par v hv hne cur hp).2

theorem tieScan_to_bfs {links : List Link} {start cur : String} {st : Search}
    (tie : TieScan links start cur links st) : TieBfs links start st := by
  refine
    { t_start := tie.t_start, t_par := tie.t_par, q_sorted := tie.q_sorted
      done_lt := ?_, pmin := tie.pmin }
  intro p hp hpq q hq
  by_cases h : p = cur
  · rw [h]; exact tie.cur_lt q hq
  · exact before_trans (tie.done_lt p hp hpq h) (tie.cur_lt q hq)

theorem tieScan_skip {links : List Link} {start cur : String} {pre : List Link}
    {st : Search} (tie : TieScan links start cur pre st) (l : Link) :
    TieScan links start cur (pre ++ [l]) st := by
  refine { tie with child := ?_ }
  intro v hv hne hp
  have := tie.child v hv hne hp
  simp only [List.length_append, List.length_singleton]
  omega

theorem tieScan_discover {links : List Link} {start end_ cur next : String}
    {pre ls : List Link} {st : Search} {l : Link}
    (inv : ScanInv links start end_ cur pre st) (tie : TieScan links start cur pre st)
    (hl : pre ++ l :: ls = links) (hc : 0 < l.capacity) (hj : l.joins cur next) :
    TieScan links start cur (pre ++ [l]) (Lemin.discover cur next st) := by
  unfold Lemin.discover
  by_cases hv : next ∈ st.visited
  · rw [if_pos hv]
    exact tieScan_skip tie l
  · rw [if_neg hv]
    have hne : ∀ v ∈ st.visited, v ≠ next := fun v h e => hv (e ▸ h)
    have hidx : hopIdx links cur next = pre.length := by
      rw [← hl]
      exact hopIdx_first (fun m hm h => hv (inv.scanned m hm h.1 next h.2)) hc hj
    have hd : ∀ v ∈ st.visited, depth ((next, cur) :: st.parent) v = depth st.parent v :=
      fun v h => depth_cons_ne _ _ _ _ (hne v h)
    have hdn : depth ((next, cur) :: st.parent) next = depth st.parent cur + 1 :=
      depth_cons_self _ _ _
    have ht : ∀ v ∈ st.visited, trail ((next, cur) :: st.parent) v = trail st.parent v :=
      fun v h => trail_cons_ne _ _ _ _ (hne v h)
    have htn : trail ((next, cur) :: st.parent) next = trail st.parent cur ++ [next] :=
      trail_cons_self _ _ _
    have hkn : hopSeq links (trail ((next, cur) :: st.parent) next) =
        hopSeq links (trail st.parent cur) ++ [pre.length] := by
      rw [htn, hopSeq_snoc links _ cur next (trail_getLast _ _), hidx]
    have hb : ∀ a ∈ st.visited, ∀ b ∈ st.visited,
        Before links st.parent a b → Before links ((next, cur) :: st.parent) a b :=
      fun a ha b hb h => (before_cons_iff (hne a ha) (hne b hb)).2 h
    have hlook : ∀ v ∈ st.visited,
        List.lookup v ((next, cur) :: st.parent) = List.lookup v st.parent := by
      intro v h
      have : (v == next) = false := by simpa using hne v h
      simp [List.lookup, this]
    have hlookn : ∀ p, List.lookup next ((next, cur) :: st.parent) = some p → p = cur := by
      intro p h
      simp [List.lookup] at h
      exact h.symm
    have hbn : ∀ a ∈ st.visited, depth st.parent a ≤ depth st.parent cur →
        Before links ((next, cur) :: st.parent) a next := by
      intro a ha h
      left
      rw [hd a ha, hdn]
      omega
    have hold : ∀ p, p ∈ next :: st.visited → p ∉ st.queue ++ [next] →
        p ∈ st.visited ∧ p ∉ st.queue := by
      intro p h1 h2
      have h3 : p ≠ next := fun e => h2 (by simp [e])
      refine ⟨?_, fun h => h2 (List.mem_append_left _ h)⟩
      rcases List.mem_cons.1 h1 with h | h
      · exact absurd h h3
      · exact h
    refine
      { t_start := ?_, t_par := ?_, q_sorted := ?_, cur_lt := ?_, done_lt := ?_
        child := ?_, pmin := ?_ }
    · show trail ((next, cur) :: st.parent) start = [start]
      rw [ht _ inv.start_mem]
      exact tie.t_start
    · intro v h hvs p hp
      show trail ((next, cur) :: st.parent) v = trail ((next, cur) :: st.parent) p ++ [v] ∧
        p ∉ st.queue ++ [next]
      change List.lookup v ((next, cur) :: st.parent) = some p at hp
      rcases List.mem_cons.1 h with h | h
      · rw [h] at hp ⊢
        rw [hlookn p hp, htn, ht _ inv.cur_mem]
        refine ⟨rfl, ?_⟩
        intro hm
        rcases List.mem_append.1 hm with hm | hm
        · exact inv.cur_nq hm
        · simp at hm
          exact hne _ inv.cur_mem hm
      · rw [hlook v h] at hp
        obtain ⟨p', h1, h2, _, _⟩ := inv.par v h hvs
        have hpp : p' = p := by
          rw [h1] at hp
          simpa using hp
        rw [hpp] at h2
        obtain ⟨e1, e2⟩ := tie.t_par v h hvs p hp
        rw [ht v h, ht p h2]
        refine ⟨e1, ?_⟩
        intro hm
        rcases List.mem_append.1 hm with hm | hm
        · exact e2 hm
        · simp at hm
          exact hne p h2 hm
    · show (st.queue ++ [next]).Pairwise (Before links ((next, cur) :: st.parent))
      rw [List.pairwise_append]
      refine ⟨?_, List.pairwise_singleton _ _, ?_⟩
      · refine tie.q_sorted.imp_of_mem ?_
        intro a b ha hb' hab
        exact hb a (inv.queue_sub a ha) b (inv.queue_sub b hb') hab
      · intro a ha b hb'
        simp at hb'
        rw [hb']
        have hav := inv.queue_sub a ha
        have hhi := inv.hi a hav
        by_cases hlt : depth st.parent a ≤ depth st.parent cur
        · exact hbn a hav hlt
        · have hda : depth st.parent a = depth st.parent cur + 1 := by omega
          have has : a ≠ start := by
            intro e
            rw [e, inv.d_start] at hda
            omega
          obtain ⟨p, h1, h2, _, h4⟩ := inv.par a hav has
          obtain ⟨e1, e2⟩ := tie.t_par a hav has p h1
          right
          refine ⟨by rw [hd a hav, hdn, hda], ?_⟩
          rw [ht a hav, hkn, e1, hopSeq_snoc links _ p a (trail_getLast _ _)]
          by_cases hpc : p = cur
          · rw [hpc] at h1 ⊢
            exact lexLt_snoc _ _ _ (tie.child a hav has h1)
          · rcases tie.done_lt p h2 e2 hpc with hbp | ⟨_, hbp⟩
            · omega
            · exact lexLt_append _ _ _ _ hbp
    · intro q h
      show Before links ((next, cur) :: st.parent) cur q
      rcases List.mem_append.1 h with h | h
      · exact hb cur inv.cur_mem q (inv.queue_sub q h) (tie.cur_lt q h)
      · simp at h
        rw [h]
        exact hbn cur inv.cur_mem (Nat.le_refl _)
    · intro p h1 h2 h3
      show Before links ((next, cur) :: st.parent) p cur
      obtain ⟨hp, hpq⟩ := hold p h1 h2
      exact hb p hp cur inv.cur_mem (tie.done_lt p hp hpq h3)
    · intro v h hvs hp
      show hopIdx links cur v < (pre ++ [l]).length
      change List.lookup v ((next, cur) :: st.parent) = some cur at hp
      simp only [List.length_append, List.length_singleton]
      rcases List.mem_cons.1 h with h | h
      · rw [h, hidx]
        omega
      · rw [hlook v h] at hp
        have := tie.child v h hvs hp
        omega
    · intro v h hvs p hp u hu hadj hup
      show Before links ((next, cur) :: st.parent) p u
      change List.lookup v ((next, cur) :: st.parent) = some p at hp
      rcases List.mem_cons.1 h with h | h
      · rw [h] at hp hadj
        have hpc := hlookn p hp
        rw [hpc] at hup ⊢
        rcases List.mem_cons.1 hu with hu | hu
        · rw [hu]
          exact hbn cur inv.cur_mem (Nat.le_refl _)
        · by_cases huq : u ∈ st.queue
          · exact hb cur inv.cur_mem u hu (tie.cur_lt u huq)
          · exact absurd (inv.closed u hu huq hup next hadj).1 hv
      · rw [hlook v h] at hp
        obtain ⟨p', h1, h2, _, _⟩ := inv.par v h hvs
        have hpp : p' = p := by
          rw [h1] at hp
          simpa using hp
        rw [hpp] at h2
        obtain ⟨_, e2⟩ := tie.t_par v h hvs p hp
        rcases List.mem_cons.1 hu with hu | hu
        · rw [hu]
          exact hbn p h2 (inv.done_le p h2 e2)
        · exact hb p h2 u hu (tie.pmin v h hvs p hp u hu hadj hup)

theorem scanLinks_tie {links : List Link} {start end_ cur : String} :
    ∀ (ls pre : List Link) (st : Search), pre ++ ls = links →
      ScanInv links start end_ cur pre st → TieScan links start cur pre st →
      TieScan links start cur links (scanLinks cur ls st) := by
  intro ls
  induction ls with
  | nil =>
    intro pre st h _ tie
    simp at h; subst h
    simpa [scanLinks] using tie
  | cons l ls ih =>
    intro pre st h inv tie
    have hl : l ∈ links := by rw [← h]; simp
    have h' : (pre ++ [l]) ++ ls = links := by simpa using h
    unfold scanLinks
    by_cases hc : 0 < l.capacity
    · by_cases hf : l.from_ = cur
      · simp only [hc, hf, if_true]
        have hj : l.joins cur l.to_ := Or.inl ⟨hf, rfl⟩
        obtain ⟨inv', hm⟩ := inv.discover ⟨l, hl, hc, hj⟩
        refine ih _ _ h' (inv'.extend l ?_) (tieScan_discover inv tie h hc hj)
        intro _ u hu
        rcases hu with ⟨_, hu⟩ | ⟨hu1, hu2⟩
        · rw [← hu]; exact hm
        · have hut : u = l.to_ := by rw [← hu2, hf, hu1]
          rw [hut]; exact hm
      · by_cases ht : l.to_ = cur
        · simp only [hc, hf, ht, if_true, if_false]
          have hj : l.joins cur l.from_ := Or.inr ⟨ht, rfl⟩
          obtain ⟨inv', hm⟩ := inv.discover ⟨l, hl, hc, hj⟩
          refine ih _ _ h' (inv'.extend l ?_) (tieScan_discover inv tie h hc hj)
          intro _ u hu
          rcases hu with ⟨hu1, _⟩ | ⟨_, hu⟩
          · exact absurd hu1 hf
          · rw [← hu]; exact hm
        · simp only [hc, hf, ht, if_true, if_false]
          refine ih _ _ h' (inv.extend l ?_) (tieScan_skip tie l)
          intro _ u hu
          rcases hu with ⟨hu1, _⟩ | ⟨hu1, _⟩
          · exact absurd hu1 hf
          · exact absurd hu1 ht
    · simp only [hc, if_false]
      exact ih _ _ h' (inv.extend l (fun h => absurd h hc)) (tieScan_skip tie l)

theorem reconstruct_trail {links : List Link} {start end_ : String} {st : Search}
    (inv : BfsInv links start end_ st) (tie : TieBfs links start st) :
    ∀ (fuel : Nat) (v : String) (tail : List String), v ∈ st.visited →
      depth st.parent v < fuel →
      reconstruct st.parent start fuel v (v :: tail) = some (trail st.parent v ++ tail) := by
  intro fuel
  induction fuel with
  | zero => intro v tail _ h; omega
  | succ fuel ih =>
    intro v tail hv hd
    by_cases hs : v = start
    · rw [reconstruct, if_pos hs, hs, tie.t_start]
      rfl
    · obtain ⟨p, h1, h2, _, h4⟩ := inv.par v hv hs
      have hp : parentOf st.parent v = p := by simp [parentOf, h1]
      rw [reconstruct, if_neg hs, hp, ih p (v :: tail) h2 (by omega),
        (tie.t_par v hv hs p h1).1]
      simp

/-- While `cur` is at the head of the queue, the `parent` chain of a room
`v` no farther from the start than `cur` is the first, in the order of the
link positions followed, of all walks from the start to `v` that are as
short. -/
theorem tieBfs_least {links : List Link} {start end_ cur : String} {st : Search}
    {rest : List String} (inv : BfsInv links start end_ st) (tie : TieBfs links start st)
    (hq : st.queue = cur :: rest) :
    ∀ (w : List String) (v : String), w.head? = some start → w.getLast? = some v →
      List.Chain' (Adj links) w → v ∈ st.visited → depth st.parent v + 1 = w.length →
      depth st.parent v ≤ depth st.parent cur →
      w = trail st.parent v ∨
        lexLt (hopSeq links (trail st.parent v)) (hopSeq links w) := by
  intro w
  induction w using List.reverseRecOn with
  | nil => intro v h; simp at h
  | append_singleton w x ih =>
    intro v hh hl hc hv hd hle
    have hx : x = v := by simpa using hl
    rw [hx] at hh hc hd ⊢
    by_cases hw : w = []
    · rw [hw] at hh ⊢
      simp at hh
      left
      rw [hh, tie.t_start]
      rfl
    · obtain ⟨s, w', hsw⟩ := List.exists_cons_of_ne_nil hw
      rw [List.head?_append_of_ne_nil _ hw] at hh
      rw [List.chain'_append] at hc
      obtain ⟨hc1, _, hc3⟩ := hc
      cases hu : w.getLast? with
      | none => exact absurd (List.getLast?_eq_none_iff.1 hu) hw
      | some u =>
        have hadj : Adj links u v := hc3 u hu v (by simp)
        have hs : s = start := by
          rw [hsw] at hh
          simpa using hh
        have hlen : w.length = w'.length + 1 := by rw [hsw]; rfl
        rw [List.length_append, List.length_singleton] at hd
        have hlev := inv.walk_level hq w' start 0 (by rw [← hs, ← hsw]; exact hc1)
          (Or.inl ⟨inv.start_mem, by simp [inv.d_start]⟩) u
          (by rw [← hs, ← hsw]; exact hu)
        have huv : u ∈ st.visited ∧ depth st.parent u ≤ w'.length := by
          rcases hlev with ⟨h1, h2⟩ | h2
          · exact ⟨h1, by omega⟩
          · omega
        have huq : u ∉ st.queue := by
          intro hmem
          rw [hq] at hmem
          have hs' := inv.sorted
          rw [hq] at hs'
          rcases List.mem_cons.1 hmem with e | e
          · rw [e] at huv; omega
          · have := (List.pairwise_cons.1 hs').1 u e
            omega
        have hcl := (inv.closed u huv.1 huq v hadj).2
        have hih := ih u hh hu hc1 huv.1 (by omega) (by omega)
        have hvs : v ≠ start := by
          intro e
          rw [e, inv.d_start] at hd
          omega
        obtain ⟨p, h1, h2, _, h4⟩ := inv.par v hv hvs
        obtain ⟨e1, _⟩ := tie.t_par v hv hvs p h1
        rw [e1, hopSeq_snoc links _ p v (trail_getLast _ _), hopSeq_snoc links _ u v hu]
        by_cases hup : u = p
        · rw [hup] at hih ⊢
          rcases hih with hih | hih
          · left; rw [hih]
          · right; exact lexLt_append _ _ _ _ hih
        · right
          apply lexLt_append
          rcases tie.pmin v hv hvs p h1 u huv.1 hadj hup with hb | ⟨_, hb⟩
          · omega
          · rcases hih with hih | hih
            · rw [hih]; exact hb
            · exact lexLt_trans _ _ _ hb hih

theorem bfsLoop_first {links : List Link} {start end_ : String} :
    ∀ (fuel : Nat) (st : Search), BfsInv links start end_ st → TieBfs links start st →
      ∀ path, bfsLoop links start end_ fuel st = some (true, path) →
      ∀ w, IsWalk links start end_ w → w.length = path.length →
        w = path ∨ lexLt (hopSeq links path) (hopSeq links w) := by
  intro fuel
  induction fuel with
  | zero =>
    intro st _ _ path h
    simp [bfsLoop] at h
  | succ fuel ih =>
    intro st inv tie path h w hw hlen
    unfold bfsLoop at h
    cases hq : st.queue with
    | nil =>
      rw [hq] at h
      simp at h
    | cons cur rest =>
      rw [hq] at h
      simp only at h
      by_cases he : cur = end_
      · rw [if_pos he] at h
        have hcur : cur ∈ st.visited := inv.queue_sub cur (by simp [hq])
        have hr := reconstruct_trail inv tie (st.parent.length + 1) cur [] hcur
          (Nat.lt_succ_of_le (depth_le_length _ _))
        rw [← he, hr] at h
        simp at h
        rw [← h] at hlen ⊢
        rw [trail_length] at hlen
        obtain ⟨hw1, hw2, hw3⟩ := hw
        rw [← he] at hw2
        exact tieBfs_least inv tie hq w cur hw1 hw2 hw3 hcur (by omega) (Nat.le_refl _)
      · rw [if_neg he] at h
        have sinv := @scanLinks_inv links start end_ cur links []
          { st with queue := rest } (by simp) (ScanInv.of_pop inv hq he)
        have stie := @scanLinks_tie links start end_ cur links []
          { st with queue := rest } (by simp) (ScanInv.of_pop inv hq he)
          (tieScan_of_pop tie hq)
        exact ih _ sinv.to_bfs (tieScan_to_bfs stie) path h w hw hlen

/-- Among the walks from `start` to `end_` that are as short as the path
`findPath` returns, the returned path is the first one: every other such
walk follows, at the first hop where it departs from the returned path, a
link of greater input position. -/
theorem findPath_first (links : List Link) (start end_ : String) (path w : List String)
    (h : findPath links start end_ = some (true, path))
    (hw : IsWalk links start end_ w) (hlen : w.length = path.length) :
    w = path ∨ lexLt (hopSeq links path) (hopSeq links w) :=
  bfsLoop_first _ _ (initSearch_inv links start end_) (initSearch_tie links start) path h w
    hw hlen


/-- C15 (input-order tie-breaking): among the walks from `start` to `end_`
that are as short as the path `findPath` returns, the returned path is the
one discovered first when the links are scanned in input order: every other
such walk follows, at the first hop where it departs from the returned path,
a link of greater input position (`hopIdx` is the position of the first
available link that joins the two rooms of a hop, whichever way round it is
written).  On the links `S-A, S-B, A-E, B-E` in this order the search
returns `[S,A,E]`, which follows the links 0 and 2 where `[S,B,E]` follows 1
and 3, and the loop of `main` returns exactly `[S,A,E]` then `[S,B,E]`; with
the first two links swapped the two routes come out in the other order, and
with the first link written `A-S` the order is that of `S-A`. -/
theorem findPath_input_order :
    (∀ (links : List Link) (start end_ : String) (path w : List String),
        findPath links start end_ = some (true, path) → IsWalk links start end_ w →
        w.length = path.length →
        w = path ∨ lexLt (hopSeq links path) (hopSeq links w)) ∧
      findPath scenarioB "S" "E" = some (true, ["S", "A", "E"]) ∧
      IsWalk scenarioB "S" "E" ["S", "B", "E"] ∧
      hopSeq scenarioB ["S", "A", "E"] = [0, 2] ∧
      hopSeq scenarioB ["S", "B", "E"] = [1, 3] ∧
      (∀ n, (extractLoop "S" "E" (n + 3) scenarioB []).map (fun r => r.1) =
        some [["S", "A", "E"], ["S", "B", "E"]]) ∧
      (∀ n, (extractLoop "S" "E" (n + 3)
          [mkLink "S" "B", mkLink "S" "A", mkLink "A" "E", mkLink "B" "E"] []).map
          (fun r => r.1) =
        some [["S", "B", "E"], ["S", "A", "E"]]) ∧
      ∀ n, (extractLoop "S" "E" (n + 3)
          [mkLink "A" "S", mkLink "S" "B", mkLink "A" "E", mkLink "B" "E"] []).map
          (fun r => r.1) =
        some [["S", "A", "E"], ["S", "B", "E"]] := by
  refine ⟨findPath_first, by decide, by simp [IsWalk, Adj, Link.joins, mkLink, scenarioB],
    by decide, by decide, fun n => (extractLoop_scenarioB n).1,
    fun n => (extractLoop_scenarioB n).2, ?_⟩
  intro n
  have c1 : findPath [mkLink "A" "S", mkLink "S" "B", mkLink "A" "E", mkLink "B" "E"]
      "S" "E" = some (true, ["S", "A", "E"]) := by decide
  have c2 : findPath (updateCapacities
      [mkLink "A" "S", mkLink "S" "B", mkLink "A" "E", mkLink "B" "E"] ["S", "A", "E"])
      "S" "E" = some (true, ["S", "B", "E"]) := by decide
  have c3 : findPath (updateCapacities (updateCapacities
      [mkLink "A" "S", mkLink "S" "B", mkLink "A" "E", mkLink "B" "E"] ["S", "A", "E"])
      ["S", "B", "E"]) "S" "E" = some (false, []) := by decide
  simp only [extractLoop, c1, c2, c3, List.nil_append, List.cons_append, Option.map_some']

theorem findPath_input_order_witness :
    findPath scenarioB "S" "E" = some (true, ["S", "A", "E"]) ∧
      IsWalk scenarioB "S" "E" ["S", "B", "E"] ∧
      ["S", "B", "E"].length = ["S", "A", "E"].length ∧
      (["S", "B", "E"] = ["S", "A", "E"] ∨
        lexLt (hopSeq scenarioB ["S", "A", "E"]) (hopSeq scenarioB ["S", "B", "E"])) :=
  ⟨by decide, by simp [IsWalk, Adj, Link.joins, mkLink, scenarioB], rfl,
    findPath_input_order.1 scenarioB "S" "E" ["S", "A", "E"] ["S", "B", "E"] (by decide)
      (by simp [IsWalk, Adj, Link.joins, mkLink, scenarioB]) rfl⟩

end Lemin
